import Mathlib

/-!
Shallow embedding of fredyw/goini (src/goini.go).

Go strings are modeled as lists of characters (abbrev Str).  Go maps
(map[string]*iniOptions, map[string]string) are modeled as association
lists whose iteration order stands in for the map iteration order; new
keys are appended, existing keys are updated in place, deletion removes
the entry.  Mutating methods of the Go code return a Bool and mutate the
receiver; here they return a pair of the Bool and the new value.
Readers are modeled as lists of read events (the chunk returned by
bufio.ReadString together with its error), writers as sinks that may
fail each numbered write.
-/

abbrev Str := List Char

/-- Model of Go unicode.IsSpace restricted to the Latin-1 range
(space, tab, newline, vertical tab, form feed, carriage return,
next line, no-break space); goini lines never contain the higher
Unicode space code points that claims exercise. -/
def isSpace (c : Char) : Bool :=
  c = ' ' || c = '\t' || c = '\n' || c = '\u000B' || c = '\u000C' ||
  c = '\r' || c = '\u0085' || c = '\u00A0'

/-- Model of strings.TrimSpace: drops whitespace from both ends
(right end first, then the left end; the order is immaterial). -/
def trimSpace (s : Str) : Str :=
  ((s.reverse.dropWhile isSpace).reverse).dropWhile isSpace

/-- Go map lookup on the association-list model. -/
def mapFind {α : Type} (m : List (Str × α)) (k : Str) : Option α :=
  match m with
  | [] => none
  | (k', v) :: rest => if k' = k then some v else mapFind rest k

/-- Go map assignment: update in place when the key exists, append otherwise. -/
def mapInsert {α : Type} (m : List (Str × α)) (k : Str) (v : α) : List (Str × α) :=
  match m with
  | [] => [(k, v)]
  | (k', v') :: rest => if k' = k then (k, v) :: rest else (k', v') :: mapInsert rest k v

/-- Go map delete: removes the entry with the key (keys are unique in a map). -/
def mapErase {α : Type} (m : List (Str × α)) (k : Str) : List (Str × α) :=
  match m with
  | [] => []
  | (k', v) :: rest => if k' = k then rest else (k', v) :: mapErase rest k

/-- The loop in remove and RemoveSection: scans the whole slice and keeps
the index of the last occurrence of the name, starting from 0. -/
def lastIdxAux (x : Str) : List Str → Nat → Nat → Nat
  | [], _, acc => acc
  | n :: rest, idx, acc => lastIdxAux x rest (idx + 1) (if n = x then idx else acc)

/-- Index computed by the removal loops of goini (0 when the name is absent). -/
def lastIdxD (l : List Str) (x : Str) : Nat := lastIdxAux x l 0 0

/-- Model of append(l[:i], l[i+1:]...) with i the index found by the loop.
goini only runs this when x is in l (the guards check existence first);
out of range, List.eraseIdx is a no-op where Go would panic. -/
def removeOrder (l : List Str) (x : Str) : List Str := l.eraseIdx (lastIdxD l x)

/-- Struct iniOptions of goini.go: ordered flag, option names in insertion
order (ordered mode only) and the name-to-value map. -/
structure iniOptions where
  ordered : Bool
  optionNames : List Str
  options : List (Str × Str)
deriving DecidableEq

/-- newOptions creates a new option set. -/
def newOptions (ordered : Bool) : iniOptions :=
  { ordered := ordered, optionNames := [], options := [] }

/-- exist checks if the specified option name exists. -/
def iniOptions.exist (opts : iniOptions) (optionName : Str) : Bool :=
  (mapFind opts.options optionName).isSome

/-- add adds a new option; always returns true.  In ordered mode a not yet
present name is appended to optionNames; then the map entry is set. -/
def iniOptions.add (opts : iniOptions) (optionName optionValue : Str) : Bool × iniOptions :=
  let opts :=
    if opts.ordered then
      if !opts.exist optionName then
        { opts with optionNames := opts.optionNames ++ [optionName] }
      else opts
    else opts
  (true, { opts with options := mapInsert opts.options optionName optionValue })

/-- get returns the value and true, or the empty string and false. -/
def iniOptions.get (opts : iniOptions) (optionName : Str) : Str × Bool :=
  if !opts.exist optionName then ([], false)
  else ((mapFind opts.options optionName).getD [], true)

/-- remove deletes an existing option from the map and, in ordered mode,
from optionNames via the last-index loop; returns false when absent. -/
def iniOptions.remove (opts : iniOptions) (optionName : Str) : Bool × iniOptions :=
  if !opts.exist optionName then (false, opts)
  else
    let opts := { opts with options := mapErase opts.options optionName }
    let opts :=
      if opts.ordered then
        { opts with optionNames := removeOrder opts.optionNames optionName }
      else opts
    (true, opts)

/-- getOptions lists option names: map iteration order when unordered,
optionNames when ordered. -/
def iniOptions.getOptions (opts : iniOptions) : List Str :=
  if !opts.ordered then opts.options.map Prod.fst
  else opts.optionNames

/-- Struct INI of goini.go. -/
structure INI where
  ordered : Bool
  sectionNames : List Str
  sections : List (Str × iniOptions)
deriving DecidableEq

/-- NewINI creates a new INI. -/
def NewINI (ordered : Bool) : INI :=
  { ordered := ordered, sectionNames := [], sections := [] }

/-- HasSection checks if the specified section name exists. -/
def INI.HasSection (ini : INI) (sectionName : Str) : Bool :=
  (mapFind ini.sections sectionName).isSome

/-- HasOption checks if the specified section and option names exist. -/
def INI.HasOption (ini : INI) (sectionName optionName : Str) : Bool :=
  match mapFind ini.sections sectionName with
  | none => false
  | some opts => opts.exist optionName

/-- AddSection adds a new section; false when the name already exists. -/
def INI.AddSection (ini : INI) (sectionName : Str) : Bool × INI :=
  if !ini.HasSection sectionName then
    let ini := { ini with sections := mapInsert ini.sections sectionName (newOptions ini.ordered) }
    let ini :=
      if ini.ordered then { ini with sectionNames := ini.sectionNames ++ [sectionName] }
      else ini
    (true, ini)
  else (false, ini)

/-- AddOption adds an option, creating the section when needed, and returns
the result of the option-level add (always true).  The none branch is
unreachable: the section was just ensured to exist. -/
def INI.AddOption (ini : INI) (sectionName optionName optionValue : Str) : Bool × INI :=
  let ini := if !ini.HasSection sectionName then (ini.AddSection sectionName).2 else ini
  match mapFind ini.sections sectionName with
  | none => (true, ini)
  | some opts =>
    let r := opts.add optionName optionValue
    (r.1, { ini with sections := mapInsert ini.sections sectionName r.2 })

/-- GetOption returns the value from the named section, or false. -/
def INI.GetOption (ini : INI) (sectionName optionName : Str) : Str × Bool :=
  match mapFind ini.sections sectionName with
  | some opts => opts.get optionName
  | none => ([], false)

/-- RemoveSection removes a section from the map and, in ordered mode, from
sectionNames via the last-index loop; false when absent. -/
def INI.RemoveSection (ini : INI) (sectionName : Str) : Bool × INI :=
  if !ini.HasSection sectionName then (false, ini)
  else
    let ini := { ini with sections := mapErase ini.sections sectionName }
    let ini :=
      if ini.ordered then
        { ini with sectionNames := removeOrder ini.sectionNames sectionName }
      else ini
    (true, ini)

/-- RemoveOption delegates to the option-level remove; false when the
section is absent.  The none branch is unreachable after the guard. -/
def INI.RemoveOption (ini : INI) (sectionName optionName : Str) : Bool × INI :=
  if !ini.HasSection sectionName then (false, ini)
  else
    match mapFind ini.sections sectionName with
    | none => (false, ini)
    | some opts =>
      let r := opts.remove optionName
      (r.1, { ini with sections := mapInsert ini.sections sectionName r.2 })

/-- Sections lists section names: map iteration order when unordered,
sectionNames when ordered. -/
def INI.Sections (ini : INI) : List Str :=
  if !ini.ordered then ini.sections.map Prod.fst
  else ini.sectionNames

/-- Options lists the option names of a section, empty when absent. -/
def INI.Options (ini : INI) (sectionName : Str) : List Str :=
  match mapFind ini.sections sectionName with
  | none => []
  | some opts => opts.getOptions

/-- Syntax error of goini.go (struct named ErrSyntax in the source):
1-based line number and the trimmed contents of the offending line. -/
structure ErrSyn where
  Line : Nat
  Source : Str
deriving DecidableEq

/-- Outcome attached to a single bufio.ReadString call: success, end of
file, or some other read error. -/
inductive RErr
  | eof
  | other
deriving DecidableEq

/-- One bufio.ReadString call: the returned chunk and its error. -/
structure REvent where
  chunk : Str
  err : Option RErr
deriving DecidableEq

/-- Model of assignRegex, a match of the anchored pattern that captures a
nonempty run of characters other than the equals sign, then the equals
sign, then the rest (in which the dot metacharacter cannot match a
newline).  The greedy first group always stops at the first equals sign. -/
def assignMatch (line : Str) : Option (Str × Str) :=
  match line.dropWhile (fun c => c != '=') with
  | '=' :: v =>
    if line.takeWhile (fun c => c != '=') ≠ [] ∧ '\n' ∉ v then
      some (line.takeWhile (fun c => c != '='), v)
    else none
  | _ => none

/-- Model of sectionRegex, an anchored pattern that requires an opening
bracket, then a greedy dot-star group (which cannot cross a newline),
then a closing bracket: the line must start with an opening bracket and
end with a closing bracket, and the group is everything in between. -/
def sectionMatch (line : Str) : Option Str :=
  if 2 ≤ line.length ∧ line.head? = some '[' ∧ line.getLast? = some ']' then
    if '\n' ∈ (line.drop 1).dropLast then none else some ((line.drop 1).dropLast)
  else none

/-- The parse loop of goini.go over a list of read events.  The line
number argument is the number of the event being processed (Go increments
lineNum before handling the line, so the first call passes 1).  Only an
EOF read error sets done; any other read error is ignored and the loop
keeps going.  The line is processed in all cases: trimmed, skipped when
blank or a comment, matched against the assignment pattern and then the
section pattern, otherwise the syntax error with the current line number
and trimmed text is returned at once. -/
def parse : List REvent → Nat → Str → INI → INI × Option ErrSyn
  | [], _, _, ini => (ini, none)
  | ev :: evs, lineNum, sec, ini =>
    let done := ev.err = some RErr.eof
    let line := trimSpace ev.chunk
    if line = [] then
      if done then (ini, none) else parse evs (lineNum + 1) sec ini
    else if line.head? = some ';' ∨ line.head? = some '#' then
      if done then (ini, none) else parse evs (lineNum + 1) sec ini
    else
      match assignMatch line with
      | some kv =>
        let ini := (ini.AddOption sec (trimSpace kv.1) (trimSpace kv.2)).2
        if done then (ini, none) else parse evs (lineNum + 1) sec ini
      | none =>
        match sectionMatch line with
        | some content =>
          let name := trimSpace content
          let ini := (ini.AddSection name).2
          if done then (ini, none) else parse evs (lineNum + 1) name ini
        | none => (ini, some { Line := lineNum, Source := line })

/-- Splits a character list at newline characters; the pieces are the
lines without their terminators, ending with the (possibly empty) piece
after the last newline. -/
def splitNL : Str → List Str
  | [] => [[]]
  | c :: cs =>
    match splitNL cs with
    | [] => [[]]
    | l :: ls => if c = '\n' then [] :: l :: ls else (c :: l) :: ls

/-- Read events produced by bufio.ReadString on an in-memory string: each
piece before the last comes back with its newline and no error, the last
piece (the remainder after the final newline, possibly empty) comes back
with the EOF error. -/
def traceOfPieces : List Str → List REvent
  | [] => []
  | [l] => [{ chunk := l, err := some RErr.eof }]
  | l :: ls => { chunk := l ++ ['\n'], err := none } :: traceOfPieces ls

/-- The full event trace of reading an in-memory string. -/
def stringTrace (s : Str) : List REvent := traceOfPieces (splitNL s)

/-- Read on an in-memory string: a fresh INI, then parse; both the INI and
the error are returned, as in goini.go. -/
def Read (s : Str) (ordered : Bool) : INI × Option ErrSyn :=
  parse (stringTrace s) 1 [] (NewINI ordered)

/-- Concatenation of the lists produced by f, used for serialization. -/
def catMap {α β : Type} (f : α → List β) : List α → List β
  | [] => []
  | a :: as => f a ++ catMap f as

/-- The lines printed by Write, without their newline terminators: for
each section in Sections order, a bracketed header line, then one
name-space-equals-space-value line per option in Options order, then an
empty separator line. -/
def writeLines (ini : INI) : List Str :=
  catMap (fun sec =>
    ('[' :: sec ++ [']']) ::
    ((ini.Options sec).map (fun o => o ++ ' ' :: '=' :: ' ' :: (ini.GetOption sec o).1)
      ++ [[]]))
    ini.Sections

inductive IOErr
  | ioError
deriving DecidableEq

/-- A sink whose write with a given sequence number may fail. -/
structure Sink where
  fails : Nat → Bool

/-- Model of one fmt.Fprintln call: the text put on the wire (the line
plus a newline) together with the error the sink reports for it. -/
def fprintln (sink : Sink) (idx : Nat) (line : Str) : Str × Option IOErr :=
  (line ++ ['\n'], if sink.fails idx then some IOErr.ioError else none)

/-- Performs every Fprintln call in order, recording each attempted write
and its outcome. -/
def writeRun (sink : Sink) : List Str → Nat → List (Str × Option IOErr)
  | [], _ => []
  | l :: ls, i => fprintln sink i l :: writeRun sink ls (i + 1)

/-- Write of goini.go: loops over sections and options calling Fprintln,
discarding every Fprintln result, and returns nil unconditionally.  The
first component is the trace of attempted writes. -/
def Write (ini : INI) (sink : Sink) : List (Str × Option IOErr) × Option IOErr :=
  (writeRun sink (writeLines ini) 0, none)

/-- The text Write produces on a sink that never fails (an in-memory
buffer): every line followed by a newline. -/
def WriteString (ini : INI) : Str :=
  catMap (fun l => l ++ ['\n']) (writeLines ini)

/-- A sink that fails every write. -/
def failAll : Sink := { fails := fun _ => true }

/-- An API call against a Document: the four mutating operations. -/
inductive Op
  | addSec (s : Str)
  | addOpt (s k v : Str)
  | rmSec (s : Str)
  | rmOpt (s k : Str)

/-- Applies one API call, dropping the Bool result. -/
def applyOp (ini : INI) : Op → INI
  | .addSec s => (ini.AddSection s).2
  | .addOpt s k v => (ini.AddOption s k v).2
  | .rmSec s => (ini.RemoveSection s).2
  | .rmOpt s k => (ini.RemoveOption s k).2

/-- The Document reached from a fresh INI by a sequence of API calls. -/
def build (ordered : Bool) (ops : List Op) : INI :=
  ops.foldl applyOp (NewINI ordered)

/-- The section argument of an API call. -/
def Op.secArg : Op → Str
  | .addSec s => s
  | .addOpt s _ _ => s
  | .rmSec s => s
  | .rmOpt s _ => s

/-- True when the string is nonempty and neither its first nor its last
character is whitespace, i.e. trimming is the identity on it. -/
def noEdgeSpace : Str → Bool
  | [] => false
  | c :: rest => !isSpace c && !isSpace ((c :: rest).getLastD ' ')

/-- Invariant tying an option set to the ordered flag of its owner: the
flag is inherited, map keys are unique, and in ordered mode optionNames
is exactly the key list of the map (empty in unordered mode). -/
def optsWF (flag : Bool) (o : iniOptions) : Prop :=
  o.ordered = flag ∧ (o.options.map Prod.fst).Nodup ∧
    o.optionNames = (if flag then o.options.map Prod.fst else [])

/-- Invariant of reachable INI values: unique section keys, sectionNames
exactly the key list in ordered mode and empty otherwise, and every
stored option set well formed for the same flag. -/
def iniWF (ini : INI) : Prop :=
  (ini.sections.map Prod.fst).Nodup ∧
  ini.sectionNames = (if ini.ordered then ini.sections.map Prod.fst else []) ∧
  ∀ p ∈ ini.sections, optsWF ini.ordered p.2

/-- The conditions the round-trip claim puts on every name and value:
nonempty and free of the equals sign, brackets and newlines. -/
def goodPiece (s : Str) : Prop :=
  s ≠ [] ∧ '=' ∉ s ∧ '[' ∉ s ∧ ']' ∉ s ∧ '\n' ∉ s

/-- A name or value that also survives the trimming the parser applies:
the claim conditions plus no leading or trailing whitespace. -/
def goodText (s : Str) : Prop := goodPiece s ∧ noEdgeSpace s = true

/-- Option names additionally must not begin with a comment marker, or
the serialized assignment line would be skipped as a comment. -/
def goodOptName (s : Str) : Prop :=
  goodText s ∧ s.head? ≠ some ';' ∧ s.head? ≠ some '#'

/-- Every stored section name, option name and value is good. -/
def GoodDoc (d : INI) : Prop :=
  ∀ p ∈ d.sections, goodText p.1 ∧
    ∀ kv ∈ p.2.options, goodOptName kv.1 ∧ goodText kv.2

/-- The amended hypotheses of the round-trip claim, per operation: only
additions, with good names and values. -/
def addOnlyGood : Op → Prop
  | .addSec s => goodText s
  | .addOpt s k v => goodText s ∧ goodOptName k ∧ goodText v
  | .rmSec _ => False
  | .rmOpt _ _ => False

/-- Replays the AddOption calls the parser makes for one section body. -/
def replayOpts (s : Str) (ini : INI) (kvs : List (Str × Str)) : INI :=
  kvs.foldl (fun i kv => (i.AddOption s kv.1 kv.2).2) ini

/-- Replays the AddSection and AddOption calls the parser makes for one
serialized section. -/
def replaySection (ini : INI) (p : Str × iniOptions) : INI :=
  replayOpts p.1 (ini.AddSection p.1).2 p.2.options

/-- Replays the calls the parser makes for a list of serialized sections. -/
def replay (ini : INI) (S : List (Str × iniOptions)) : INI :=
  S.foldl replaySection ini

/-- The lines Write emits for one stored section: header, one line per
option, and a blank separator. -/
def entryLines (p : Str × iniOptions) : List Str :=
  ('[' :: (p.1 ++ [']'])) ::
    (p.2.options.map (fun kv => kv.1 ++ ' ' :: '=' :: ' ' :: kv.2) ++ [[]])

/-- The read events those lines produce (each with its newline, no error). -/
def lineEvents (p : Str × iniOptions) : List REvent :=
  (entryLines p).map (fun l => { chunk := l ++ ['\n'], err := none })

/-- A read chunk whose trimmed text is non-blank, is not a comment, and
matches neither the assignment pattern nor the section-header pattern:
exactly the lines the parser rejects. -/
def lineBad (chunk : Str) : Bool :=
  (!decide (trimSpace chunk = [])) &&
  (!decide ((trimSpace chunk).head? = some ';' ∨ (trimSpace chunk).head? = some '#')) &&
  (assignMatch (trimSpace chunk)).isNone &&
  (sectionMatch (trimSpace chunk)).isNone

/-- The error parse reports: the first bad line, numbered from n, with
reading stopping at an EOF event. -/
def firstBad : List REvent → Nat → Option ErrSyn
  | [], _ => none
  | ev :: evs, n =>
    if lineBad ev.chunk = true then some { Line := n, Source := trimSpace ev.chunk }
    else if ev.err = some RErr.eof then none
    else firstBad evs (n + 1)

instance (s : Str) : Decidable (goodPiece s) := by
  unfold goodPiece
  infer_instance

instance (s : Str) : Decidable (goodText s) := by
  unfold goodText
  infer_instance

instance (s : Str) : Decidable (goodOptName s) := by
  unfold goodOptName
  infer_instance

instance (op : Op) : Decidable (addOnlyGood op) := by
  cases op <;> unfold addOnlyGood <;> infer_instance

/-- The hypotheses the round-trip claim literally states, per operation:
only additions, with names and values that are nonempty and free of the
equals sign, brackets and newlines. -/
def addOnlyPiece : Op → Prop
  | .addSec s => goodPiece s
  | .addOpt s k v => goodPiece s ∧ goodPiece k ∧ goodPiece v
  | .rmSec _ => False
  | .rmOpt _ _ => False

instance (op : Op) : Decidable (addOnlyPiece op) := by
  cases op <;> unfold addOnlyPiece <;> infer_instance

theorem mapFind_mapInsert_self {α : Type} (m : List (Str × α)) (k : Str) (v : α) :
    mapFind (mapInsert m k v) k = some v := by
  induction m with
  | nil => simp [mapInsert, mapFind]
  | cons p rest ih =>
    obtain ⟨a, b⟩ := p
    by_cases ha : a = k
    · subst ha; simp [mapInsert, mapFind]
    · simp [mapInsert, mapFind, ha, ih]

theorem mapFind_mapInsert_ne {α : Type} (m : List (Str × α)) (k k' : Str) (v : α)
    (h : k' ≠ k) : mapFind (mapInsert m k v) k' = mapFind m k' := by
  have hkk : ¬(k = k') := fun he => h he.symm
  induction m with
  | nil => simp [mapInsert, mapFind, hkk]
  | cons p rest ih =>
    obtain ⟨a, b⟩ := p
    by_cases ha : a = k
    · subst ha
      simp [mapInsert, mapFind, hkk]
    · by_cases hb : a = k'
      · subst hb
        simp [mapInsert, mapFind, ha]
      · simp [mapInsert, mapFind, ha, hb, ih]

theorem mapFind_eq_none_iff {α : Type} (m : List (Str × α)) (k : Str) :
    mapFind m k = none ↔ k ∉ m.map Prod.fst := by
  induction m with
  | nil => simp [mapFind]
  | cons p rest ih =>
    obtain ⟨a, b⟩ := p
    by_cases h : a = k
    · subst h
      simp only [mapFind, if_pos rfl, List.map_cons, List.mem_cons, not_or]
      constructor
      · intro hh; exact Option.noConfusion hh
      · intro hh; exact absurd trivial hh.1
    · simp only [mapFind, if_neg h, List.map_cons, List.mem_cons, not_or]
      constructor
      · intro hh; exact ⟨fun he => h he.symm, ih.mp hh⟩
      · intro hh; exact ih.mpr hh.2

theorem mapFind_isSome_iff {α : Type} (m : List (Str × α)) (k : Str) :
    (mapFind m k).isSome = true ↔ k ∈ m.map Prod.fst := by
  rcases hh : mapFind m k with _ | v
  · exact iff_of_false (by simp) ((mapFind_eq_none_iff m k).mp hh)
  · have hns : ¬mapFind m k = none := by rw [hh]; exact Option.noConfusion
    have hmem : k ∈ m.map Prod.fst := by
      by_contra hmem
      exact hns ((mapFind_eq_none_iff m k).mpr hmem)
    exact iff_of_true rfl hmem

theorem mapInsert_absent {α : Type} (m : List (Str × α)) (k : Str) (v : α)
    (h : mapFind m k = none) : mapInsert m k v = m ++ [(k, v)] := by
  induction m with
  | nil => rfl
  | cons p rest ih =>
    obtain ⟨a, b⟩ := p
    by_cases ha : a = k
    · subst ha; simp [mapFind] at h
    · simp only [mapFind, if_neg ha] at h
      simp [mapInsert, ha, ih h]

theorem keys_mapInsert_present {α : Type} (m : List (Str × α)) (k : Str) (v : α)
    (h : k ∈ m.map Prod.fst) :
    (mapInsert m k v).map Prod.fst = m.map Prod.fst := by
  induction m with
  | nil => simp at h
  | cons p rest ih =>
    obtain ⟨a, b⟩ := p
    by_cases ha : a = k
    · subst ha; simp [mapInsert]
    · rw [List.map_cons] at h
      have h2 : k ∈ rest.map Prod.fst := by
        rcases List.mem_cons.mp h with h1 | h1
        · exact absurd h1.symm ha
        · exact h1
      simp [mapInsert, ha, ih h2]

theorem mem_mapInsert {α : Type} (m : List (Str × α)) (k : Str) (v : α) (q : Str × α)
    (h : q ∈ mapInsert m k v) : q ∈ m ∨ q = (k, v) := by
  induction m with
  | nil =>
    simp only [mapInsert, List.mem_singleton] at h
    exact Or.inr h
  | cons p rest ih =>
    obtain ⟨a, b⟩ := p
    by_cases ha : a = k
    · subst ha
      have h1 : q = (a, v) ∨ q ∈ rest := by simpa [mapInsert] using h
      rcases h1 with h1 | h1
      · exact Or.inr h1
      · exact Or.inl (List.mem_cons_of_mem _ h1)
    · have h1 : q = (a, b) ∨ q ∈ mapInsert rest k v := by simpa [mapInsert, ha] using h
      rcases h1 with h1 | h1
      · exact Or.inl (by simp [h1])
      · rcases ih h1 with h2 | h2
        · exact Or.inl (List.mem_cons_of_mem _ h2)
        · exact Or.inr h2

theorem mapInsert_found_self {α : Type} (m : List (Str × α)) (k : Str) (v : α)
    (h : mapFind m k = some v) : mapInsert m k v = m := by
  induction m with
  | nil => simp [mapFind] at h
  | cons p rest ih =>
    obtain ⟨a, b⟩ := p
    by_cases ha : a = k
    · subst ha
      have hb : b = v := by simpa [mapFind] using h
      subst hb
      simp [mapInsert]
    · simp only [mapFind, if_neg ha] at h
      simp [mapInsert, ha, ih h]

theorem mem_mapErase {α : Type} (m : List (Str × α)) (k : Str) (q : Str × α)
    (h : q ∈ mapErase m k) : q ∈ m := by
  induction m with
  | nil => simp [mapErase] at h
  | cons p rest ih =>
    obtain ⟨a, b⟩ := p
    by_cases ha : a = k
    · subst ha
      simp only [mapErase, if_pos rfl] at h
      exact List.mem_cons_of_mem _ h
    · have h1 : q = (a, b) ∨ q ∈ mapErase rest k := by simpa [mapErase, ha] using h
      rcases h1 with h1 | h1
      · simp [h1]
      · exact List.mem_cons_of_mem _ (ih h1)

theorem keys_mapErase {α : Type} (m : List (Str × α)) (k : Str) :
    (mapErase m k).map Prod.fst = (m.map Prod.fst).erase k := by
  induction m with
  | nil => simp [mapErase]
  | cons p rest ih =>
    obtain ⟨a, b⟩ := p
    by_cases ha : a = k
    · subst ha; simp [mapErase, List.erase_cons]
    · simp [mapErase, ha, List.erase_cons, ih]

theorem mapFind_mapErase_ne {α : Type} (m : List (Str × α)) (k k' : Str)
    (h : k' ≠ k) : mapFind (mapErase m k) k' = mapFind m k' := by
  induction m with
  | nil => simp [mapErase]
  | cons p rest ih =>
    obtain ⟨a, b⟩ := p
    by_cases ha : a = k
    · subst ha
      have hne : ¬(a = k') := fun he => h (he.symm)
      simp [mapErase, mapFind, hne]
    · by_cases hb : a = k'
      · subst hb
        simp [mapErase, mapFind, ha]
      · simp [mapErase, mapFind, ha, hb, ih]

theorem mapFind_mapErase_self {α : Type} (m : List (Str × α)) (k : Str)
    (h : (m.map Prod.fst).Nodup) : mapFind (mapErase m k) k = none := by
  rw [mapFind_eq_none_iff, keys_mapErase]
  exact List.Nodup.not_mem_erase h

theorem mapFind_of_mem_nodup {α : Type} (m : List (Str × α)) (k : Str) (v : α)
    (hnd : (m.map Prod.fst).Nodup) (h : (k, v) ∈ m) : mapFind m k = some v := by
  induction m with
  | nil => simp at h
  | cons p rest ih =>
    obtain ⟨a, b⟩ := p
    simp only [List.map_cons, List.nodup_cons] at hnd
    rcases List.mem_cons.mp h with h1 | h1
    · injection h1 with e1 e2
      subst e1; subst e2
      simp [mapFind]
    · have hak : ¬(a = k) := by
        intro he; subst he
        exact hnd.1 (List.mem_map.mpr ⟨(a, v), h1, rfl⟩)
      simp [mapFind, hak, ih hnd.2 h1]

theorem mapFind_append_absent {α : Type} (L : List (Str × α)) (k : Str) (v : α)
    (h : k ∉ L.map Prod.fst) : mapFind (L ++ [(k, v)]) k = some v := by
  induction L with
  | nil => simp [mapFind]
  | cons p rest ih =>
    obtain ⟨a, b⟩ := p
    simp only [List.map_cons, List.mem_cons, not_or] at h
    have hne : ¬(a = k) := fun he => h.1 he.symm
    simp [mapFind, hne, ih h.2]

theorem mapInsert_append_absent {α : Type} (L : List (Str × α)) (k : Str) (v v' : α)
    (h : k ∉ L.map Prod.fst) : mapInsert (L ++ [(k, v)]) k v' = L ++ [(k, v')] := by
  induction L with
  | nil => simp [mapInsert]
  | cons p rest ih =>
    obtain ⟨a, b⟩ := p
    simp only [List.map_cons, List.mem_cons, not_or] at h
    have hne : ¬(a = k) := fun he => h.1 he.symm
    simp [mapInsert, hne, ih h.2]

theorem lastIdxAux_not_mem (x : Str) (l : List Str) (h : x ∉ l) :
    ∀ n acc, lastIdxAux x l n acc = acc := by
  induction l with
  | nil => intro n acc; rfl
  | cons c rest ih =>
    intro n acc
    simp only [List.mem_cons, not_or] at h
    have hc : ¬(c = x) := fun he => h.1 he.symm
    simp only [lastIdxAux, if_neg hc]
    exact ih h.2 (n + 1) acc

theorem lastIdxAux_succ (x : Str) (l : List Str) (h : x ∈ l) :
    ∀ n a b, lastIdxAux x l (n + 1) a = lastIdxAux x l n b + 1 := by
  induction l with
  | nil => simp at h
  | cons c rest ih =>
    intro n a b
    by_cases hc : c = x
    · simp only [lastIdxAux, if_pos hc]
      by_cases hr : x ∈ rest
      · exact ih hr (n + 1) (n + 1) n
      · rw [lastIdxAux_not_mem x rest hr, lastIdxAux_not_mem x rest hr]
    · simp only [lastIdxAux, if_neg hc]
      have hr : x ∈ rest := by
        rcases List.mem_cons.mp h with h1 | h1
        · exact absurd h1.symm hc
        · exact h1
      exact ih hr (n + 1) a b

theorem removeOrder_eq_erase (l : List Str) (x : Str) (hnd : l.Nodup) (h : x ∈ l) :
    removeOrder l x = l.erase x := by
  induction l with
  | nil => simp at h
  | cons c rest ih =>
    simp only [List.nodup_cons] at hnd
    by_cases hc : c = x
    · subst hc
      have hr : c ∉ rest := hnd.1
      unfold removeOrder lastIdxD
      simp only [lastIdxAux, eq_self_iff_true, if_true]
      rw [lastIdxAux_not_mem c rest hr (0 + 1) 0]
      simp [List.erase_cons]
    · have hr : x ∈ rest := by
        rcases List.mem_cons.mp h with h1 | h1
        · exact absurd h1.symm hc
        · exact h1
      unfold removeOrder lastIdxD
      simp only [lastIdxAux, if_neg hc]
      rw [lastIdxAux_succ x rest hr 0 0 0]
      rw [List.eraseIdx_cons_succ]
      have hrec := ih hnd.2 hr
      unfold removeOrder lastIdxD at hrec
      rw [hrec, List.erase_cons, if_neg (by simp [hc])]

theorem noEdgeSpace_head (l : Str) (h : noEdgeSpace l = true) :
    ∃ c m, l = c :: m ∧ isSpace c = false := by
  match l with
  | [] => exact absurd h (by simp [noEdgeSpace])
  | c :: rest =>
    refine ⟨c, rest, rfl, ?_⟩
    simp only [noEdgeSpace, Bool.and_eq_true, Bool.not_eq_true'] at h
    exact h.1

theorem noEdgeSpace_last (l : Str) (h : noEdgeSpace l = true) :
    ∃ m d, l = m ++ [d] ∧ isSpace d = false := by
  match l with
  | [] => exact absurd h (by simp [noEdgeSpace])
  | c :: rest =>
    have hne : c :: rest ≠ [] := List.cons_ne_nil c rest
    refine ⟨(c :: rest).dropLast, (c :: rest).getLast hne, (List.dropLast_append_getLast hne).symm, ?_⟩
    simp only [noEdgeSpace, Bool.and_eq_true, Bool.not_eq_true'] at h
    have hd : (c :: rest).getLastD ' ' = (c :: rest).getLast hne := by
      rw [List.getLastD_eq_getLast?, List.getLast?_eq_getLast (c :: rest) hne]
      rfl
    rw [← hd]
    exact h.2

theorem dropWhile_isSpace_self (l : Str) (h : noEdgeSpace l = true) :
    l.dropWhile isSpace = l := by
  obtain ⟨c, m, rfl, hc⟩ := noEdgeSpace_head l h
  rw [List.dropWhile_cons, if_neg (by simp [hc])]

theorem rev_append_dropWhile (l t : Str) (h : noEdgeSpace l = true) :
    (l.reverse ++ t).dropWhile isSpace = l.reverse ++ t := by
  obtain ⟨m, d, rfl, hd⟩ := noEdgeSpace_last l h
  simp only [List.reverse_append, List.reverse_singleton, List.singleton_append,
    List.cons_append]
  rw [List.dropWhile_cons, if_neg (by simp [hd])]

theorem rev_dropWhile (l : Str) (h : noEdgeSpace l = true) :
    l.reverse.dropWhile isSpace = l.reverse := by
  have := rev_append_dropWhile l [] h
  simpa using this

theorem trimSpace_eq_self (l : Str) (h : noEdgeSpace l = true) : trimSpace l = l := by
  unfold trimSpace
  rw [rev_dropWhile l h, List.reverse_reverse, dropWhile_isSpace_self l h]

theorem trimSpace_append_space (l : Str) (c : Char) (hc : isSpace c = true)
    (h : noEdgeSpace l = true) : trimSpace (l ++ [c]) = l := by
  unfold trimSpace
  simp only [List.reverse_append, List.reverse_singleton, List.singleton_append]
  rw [List.dropWhile_cons, if_pos hc, rev_dropWhile l h, List.reverse_reverse,
    dropWhile_isSpace_self l h]

theorem trimSpace_space_cons (v : Str) (c : Char) (hc : isSpace c = true)
    (h : noEdgeSpace v = true) : trimSpace (c :: v) = v := by
  unfold trimSpace
  rw [List.reverse_cons, rev_append_dropWhile v [c] h]
  simp only [List.reverse_append, List.reverse_singleton, List.singleton_append,
    List.reverse_reverse]
  rw [List.dropWhile_cons, if_pos hc, dropWhile_isSpace_self v h]

theorem mapFind_mem {α : Type} (m : List (Str × α)) (k : Str) (v : α)
    (h : mapFind m k = some v) : (k, v) ∈ m := by
  induction m with
  | nil => simp [mapFind] at h
  | cons p rest ih =>
    obtain ⟨a, b⟩ := p
    by_cases ha : a = k
    · subst ha
      have hb : b = v := by simpa [mapFind] using h
      subst hb
      exact List.mem_cons_self _ _
    · simp only [mapFind, if_neg ha] at h
      exact List.mem_cons_of_mem _ (ih h)

theorem HasSection_eq_false_iff (ini : INI) (s : Str) :
    ini.HasSection s = false ↔ mapFind ini.sections s = none := by
  unfold INI.HasSection
  rcases hh : mapFind ini.sections s with _ | o <;> simp [hh]

theorem add_shape (o : iniOptions) (k v : Str) :
    o.add k v = (true,
      { ordered := o.ordered,
        optionNames := o.optionNames ++ (if o.ordered && !o.exist k then [k] else []),
        options := mapInsert o.options k v }) := by
  by_cases ho : o.ordered = true
  · by_cases he : o.exist k = true
    · simp [iniOptions.add, ho, he]
    · simp only [Bool.not_eq_true] at he
      simp [iniOptions.add, ho, he]
  · simp only [Bool.not_eq_true] at ho
    simp [iniOptions.add, ho]

theorem remove_absent (o : iniOptions) (k : Str) (h : o.exist k = false) :
    o.remove k = (false, o) := by
  simp [iniOptions.remove, h]

theorem remove_present (o : iniOptions) (k : Str) (h : o.exist k = true) :
    o.remove k = (true,
      { ordered := o.ordered,
        optionNames := if o.ordered then removeOrder o.optionNames k else o.optionNames,
        options := mapErase o.options k }) := by
  by_cases ho : o.ordered = true
  · simp [iniOptions.remove, h, ho]
  · simp only [Bool.not_eq_true] at ho
    simp [iniOptions.remove, h, ho]

theorem AddSection_present (ini : INI) (s : Str) (h : ini.HasSection s = true) :
    ini.AddSection s = (false, ini) := by
  simp [INI.AddSection, h]

theorem AddSection_absent (ini : INI) (s : Str) (h : ini.HasSection s = false) :
    ini.AddSection s = (true,
      { ordered := ini.ordered,
        sectionNames := ini.sectionNames ++ (if ini.ordered then [s] else []),
        sections := ini.sections ++ [(s, newOptions ini.ordered)] }) := by
  have hfind : mapFind ini.sections s = none := (HasSection_eq_false_iff ini s).mp h
  by_cases ho : ini.ordered = true
  · simp [INI.AddSection, h, ho, mapInsert_absent _ _ _ hfind]
  · simp only [Bool.not_eq_true] at ho
    simp [INI.AddSection, h, ho, mapInsert_absent _ _ _ hfind]

theorem AddOption_found (ini : INI) (s k v : Str) (opts : iniOptions)
    (h : mapFind ini.sections s = some opts) :
    ini.AddOption s k v = (true,
      { ini with sections := mapInsert ini.sections s (opts.add k v).2 }) := by
  have hs : ini.HasSection s = true := by simp [INI.HasSection, h]
  simp only [INI.AddOption, hs, Bool.not_true, if_neg (by simp : ¬(false = true)), h]
  rw [add_shape]

theorem AddOption_absent (ini : INI) (s k v : Str) (h : ini.HasSection s = false) :
    ini.AddOption s k v = (true,
      { ordered := ini.ordered,
        sectionNames := ini.sectionNames ++ (if ini.ordered then [s] else []),
        sections := ini.sections ++ [(s, ((newOptions ini.ordered).add k v).2)] }) := by
  have hfind : mapFind ini.sections s = none := (HasSection_eq_false_iff ini s).mp h
  have hnot : s ∉ ini.sections.map Prod.fst := (mapFind_eq_none_iff _ _).mp hfind
  simp only [INI.AddOption, h, Bool.not_false, if_pos rfl]
  rw [AddSection_absent ini s h]
  simp only [if_true,
    mapFind_append_absent ini.sections s (newOptions ini.ordered) hnot,
    mapInsert_append_absent ini.sections s (newOptions ini.ordered)
      ((newOptions ini.ordered).add k v).2 hnot]
  rfl

theorem RemoveSection_absent (ini : INI) (s : Str) (h : ini.HasSection s = false) :
    ini.RemoveSection s = (false, ini) := by
  simp [INI.RemoveSection, h]

theorem RemoveSection_present (ini : INI) (s : Str) (h : ini.HasSection s = true) :
    ini.RemoveSection s = (true,
      { ordered := ini.ordered,
        sectionNames := if ini.ordered then removeOrder ini.sectionNames s else ini.sectionNames,
        sections := mapErase ini.sections s }) := by
  by_cases ho : ini.ordered = true
  · simp [INI.RemoveSection, h, ho]
  · simp only [Bool.not_eq_true] at ho
    simp [INI.RemoveSection, h, ho]

theorem RemoveOption_noSection (ini : INI) (s k : Str) (h : ini.HasSection s = false) :
    ini.RemoveOption s k = (false, ini) := by
  simp [INI.RemoveOption, h]

theorem RemoveOption_found (ini : INI) (s k : Str) (opts : iniOptions)
    (h : mapFind ini.sections s = some opts) :
    ini.RemoveOption s k = ((opts.remove k).1,
      { ini with sections := mapInsert ini.sections s (opts.remove k).2 }) := by
  have hs : ini.HasSection s = true := by simp [INI.HasSection, h]
  simp [INI.RemoveOption, hs, h]

theorem optsWF_new (flag : Bool) : optsWF flag (newOptions flag) := by
  refine ⟨rfl, by simp [newOptions], ?_⟩
  cases flag <;> simp [newOptions]

theorem iniWF_new (flag : Bool) : iniWF (NewINI flag) := by
  refine ⟨by simp [NewINI], ?_, ?_⟩
  · cases flag <;> simp [NewINI]
  · intro p hp; simp [NewINI] at hp

theorem exist_iff_mem_keys (o : iniOptions) (k : Str) :
    o.exist k = true ↔ k ∈ o.options.map Prod.fst := by
  unfold iniOptions.exist
  exact mapFind_isSome_iff o.options k

theorem optsWF_add (flag : Bool) (o : iniOptions) (k v : Str) (h : optsWF flag o) :
    optsWF flag (o.add k v).2 := by
  obtain ⟨h1, h2, h3⟩ := h
  rw [add_shape]
  by_cases hk : k ∈ o.options.map Prod.fst
  · have he : o.exist k = true := (exist_iff_mem_keys o k).mpr hk
    refine ⟨h1, ?_, ?_⟩
    · simpa [keys_mapInsert_present o.options k v hk] using h2
    · simp [he, keys_mapInsert_present o.options k v hk, h3]
  · have he : o.exist k = false := by
      rcases Bool.eq_false_or_eq_true (o.exist k) with hh | hh
      · exact absurd ((exist_iff_mem_keys o k).mp hh) hk
      · exact hh
    have hfind : mapFind o.options k = none := (mapFind_eq_none_iff _ _).mpr hk
    rw [mapInsert_absent _ _ _ hfind]
    refine ⟨h1, ?_, ?_⟩
    · simp [List.map_append, List.nodup_append, h2, hk]
    · cases flag with
      | false => simp [he, h1, h3]
      | true => simp [he, h1, h3, List.map_append]

theorem exist_eq_false_of_not_mem (o : iniOptions) (k : Str)
    (hk : k ∉ o.options.map Prod.fst) : o.exist k = false := by
  rcases Bool.eq_false_or_eq_true (o.exist k) with hh | hh
  · exact absurd ((exist_iff_mem_keys o k).mp hh) hk
  · exact hh

theorem optsWF_remove (flag : Bool) (o : iniOptions) (k : Str) (h : optsWF flag o) :
    optsWF flag (o.remove k).2 := by
  obtain ⟨h1, h2, h3⟩ := h
  by_cases he : o.exist k = true
  · rw [remove_present o k he]
    refine ⟨h1, ?_, ?_⟩
    · rw [keys_mapErase]
      exact h2.erase k
    · cases flag with
      | false =>
        rw [if_neg Bool.false_ne_true] at h3
        simp [h1, h3]
      | true =>
        have hmem : k ∈ o.optionNames := by
          rw [h3, if_pos rfl]
          exact (exist_iff_mem_keys o k).mp he
        have hnd : o.optionNames.Nodup := by
          rw [h3, if_pos rfl]; exact h2
        simp only [h1, keys_mapErase, eq_self_iff_true, if_true]
        rw [removeOrder_eq_erase o.optionNames k hnd hmem, h3, if_pos rfl]
  · have he' : o.exist k = false := by simpa using he
    rw [remove_absent o k he']
    exact ⟨h1, h2, h3⟩

theorem iniWF_AddSection (ini : INI) (s : Str) (h : iniWF ini) :
    iniWF (ini.AddSection s).2 := by
  obtain ⟨h1, h2, h3⟩ := h
  by_cases hs : ini.HasSection s = true
  · rw [AddSection_present ini s hs]; exact ⟨h1, h2, h3⟩
  · have hs' : ini.HasSection s = false := by simpa using hs
    have hfind := (HasSection_eq_false_iff ini s).mp hs'
    have hnot : s ∉ ini.sections.map Prod.fst := (mapFind_eq_none_iff _ _).mp hfind
    rw [AddSection_absent ini s hs']
    refine ⟨?_, ?_, ?_⟩
    · simp [List.map_append, List.nodup_append, h1, hnot]
    · by_cases ho : ini.ordered = true
      · simp [ho, h2, List.map_append]
      · have ho' : ini.ordered = false := by simpa using ho
        simp [ho', h2] at h2 ⊢
    · intro p hp
      rcases List.mem_append.mp hp with hp | hp
      · exact h3 p hp
      · simp only [List.mem_singleton] at hp
        subst hp
        exact optsWF_new ini.ordered

theorem iniWF_AddOption (ini : INI) (s k v : Str) (h : iniWF ini) :
    iniWF (ini.AddOption s k v).2 := by
  by_cases hs : ini.HasSection s = true
  · obtain ⟨h1, h2, h3⟩ := h
    obtain ⟨opts, hfind⟩ : ∃ opts, mapFind ini.sections s = some opts := by
      unfold INI.HasSection at hs
      rcases hh : mapFind ini.sections s with _ | o
      · rw [hh] at hs; simp at hs
      · exact ⟨o, rfl⟩
    rw [AddOption_found ini s k v opts hfind]
    have hkeys : s ∈ ini.sections.map Prod.fst := by
      rw [← mapFind_isSome_iff]; simp [hfind]
    refine ⟨?_, ?_, ?_⟩
    · rw [keys_mapInsert_present _ _ _ hkeys]; exact h1
    · rw [keys_mapInsert_present _ _ _ hkeys]; exact h2
    · intro p hp
      rcases mem_mapInsert _ _ _ _ hp with hp | hp
      · exact h3 p hp
      · subst hp
        exact optsWF_add _ opts k v (h3 (s, opts) (mapFind_mem _ _ _ hfind))
  · have hs' : ini.HasSection s = false := by simpa using hs
    rw [AddOption_absent ini s k v hs']
    obtain ⟨h1, h2, h3⟩ := h
    have hfind := (HasSection_eq_false_iff ini s).mp hs'
    have hnot : s ∉ ini.sections.map Prod.fst := (mapFind_eq_none_iff _ _).mp hfind
    refine ⟨?_, ?_, ?_⟩
    · simp [List.map_append, List.nodup_append, h1, hnot]
    · by_cases ho : ini.ordered = true
      · simp [ho, h2, List.map_append]
      · have ho' : ini.ordered = false := by simpa using ho
        simp [ho', h2] at h2 ⊢
    · intro p hp
      rcases List.mem_append.mp hp with hp | hp
      · exact h3 p hp
      · simp only [List.mem_singleton] at hp
        subst hp
        exact optsWF_add _ _ k v (optsWF_new ini.ordered)

theorem iniWF_RemoveSection (ini : INI) (s : Str) (h : iniWF ini) :
    iniWF (ini.RemoveSection s).2 := by
  obtain ⟨h1, h2, h3⟩ := h
  by_cases hs : ini.HasSection s = true
  · rw [RemoveSection_present ini s hs]
    refine ⟨?_, ?_, ?_⟩
    · rw [keys_mapErase]
      exact h1.erase s
    · by_cases ho : ini.ordered = true
      · have hmem : s ∈ ini.sectionNames := by
          rw [h2, if_pos ho]
          unfold INI.HasSection at hs
          exact (mapFind_isSome_iff _ _).mp hs
        have hnd : ini.sectionNames.Nodup := by
          rw [h2, if_pos ho]; exact h1
        simp only [ho, keys_mapErase, eq_self_iff_true, if_true]
        rw [removeOrder_eq_erase ini.sectionNames s hnd hmem, h2, if_pos ho]
      · have ho' : ini.ordered = false := by simpa using ho
        rw [ho'] at h2
        rw [if_neg Bool.false_ne_true] at h2
        simp [ho', h2]
    · intro p hp
      exact h3 p (mem_mapErase _ _ _ hp)
  · have hs' : ini.HasSection s = false := by simpa using hs
    rw [RemoveSection_absent ini s hs']
    exact ⟨h1, h2, h3⟩

theorem iniWF_RemoveOption (ini : INI) (s k : Str) (h : iniWF ini) :
    iniWF (ini.RemoveOption s k).2 := by
  by_cases hs : ini.HasSection s = true
  · obtain ⟨h1, h2, h3⟩ := h
    obtain ⟨opts, hfind⟩ : ∃ opts, mapFind ini.sections s = some opts := by
      unfold INI.HasSection at hs
      rcases hh : mapFind ini.sections s with _ | o
      · rw [hh] at hs; simp at hs
      · exact ⟨o, rfl⟩
    rw [RemoveOption_found ini s k opts hfind]
    have hkeys : s ∈ ini.sections.map Prod.fst := by
      rw [← mapFind_isSome_iff]; simp [hfind]
    refine ⟨?_, ?_, ?_⟩
    · rw [keys_mapInsert_present _ _ _ hkeys]; exact h1
    · rw [keys_mapInsert_present _ _ _ hkeys]; exact h2
    · intro p hp
      rcases mem_mapInsert _ _ _ _ hp with hp | hp
      · exact h3 p hp
      · subst hp
        exact optsWF_remove _ opts k (h3 (s, opts) (mapFind_mem _ _ _ hfind))
  · have hs' : ini.HasSection s = false := by simpa using hs
    rw [RemoveOption_noSection ini s k hs']
    exact h

theorem iniWF_applyOp (ini : INI) (op : Op) (h : iniWF ini) : iniWF (applyOp ini op) := by
  cases op with
  | addSec s => exact iniWF_AddSection ini s h
  | addOpt s k v => exact iniWF_AddOption ini s k v h
  | rmSec s => exact iniWF_RemoveSection ini s h
  | rmOpt s k => exact iniWF_RemoveOption ini s k h

theorem iniWF_foldl (ops : List Op) : ∀ ini, iniWF ini → iniWF (ops.foldl applyOp ini) := by
  induction ops with
  | nil => intro ini h; exact h
  | cons op rest ih => intro ini h; exact ih _ (iniWF_applyOp ini op h)

theorem iniWF_build (flag : Bool) (ops : List Op) : iniWF (build flag ops) :=
  iniWF_foldl ops (NewINI flag) (iniWF_new flag)

theorem ordered_AddSection (ini : INI) (s : Str) :
    (ini.AddSection s).2.ordered = ini.ordered := by
  by_cases hs : ini.HasSection s = true
  · rw [AddSection_present ini s hs]
  · rw [AddSection_absent ini s (by simpa using hs)]

theorem ordered_AddOption (ini : INI) (s k v : Str) :
    (ini.AddOption s k v).2.ordered = ini.ordered := by
  by_cases hs : ini.HasSection s = true
  · obtain ⟨opts, hfind⟩ : ∃ opts, mapFind ini.sections s = some opts := by
      unfold INI.HasSection at hs
      rcases hh : mapFind ini.sections s with _ | o
      · rw [hh] at hs; simp at hs
      · exact ⟨o, rfl⟩
    rw [AddOption_found ini s k v opts hfind]
  · rw [AddOption_absent ini s k v (by simpa using hs)]

theorem ordered_RemoveSection (ini : INI) (s : Str) :
    (ini.RemoveSection s).2.ordered = ini.ordered := by
  by_cases hs : ini.HasSection s = true
  · rw [RemoveSection_present ini s hs]
  · rw [RemoveSection_absent ini s (by simpa using hs)]

theorem ordered_RemoveOption (ini : INI) (s k : Str) :
    (ini.RemoveOption s k).2.ordered = ini.ordered := by
  by_cases hs : ini.HasSection s = true
  · obtain ⟨opts, hfind⟩ : ∃ opts, mapFind ini.sections s = some opts := by
      unfold INI.HasSection at hs
      rcases hh : mapFind ini.sections s with _ | o
      · rw [hh] at hs; simp at hs
      · exact ⟨o, rfl⟩
    rw [RemoveOption_found ini s k opts hfind]
  · rw [RemoveOption_noSection ini s k (by simpa using hs)]

theorem ordered_applyOp (ini : INI) (op : Op) : (applyOp ini op).ordered = ini.ordered := by
  cases op with
  | addSec s => exact ordered_AddSection ini s
  | addOpt s k v => exact ordered_AddOption ini s k v
  | rmSec s => exact ordered_RemoveSection ini s
  | rmOpt s k => exact ordered_RemoveOption ini s k

theorem ordered_foldl (ops : List Op) : ∀ ini : INI, (ops.foldl applyOp ini).ordered = ini.ordered := by
  induction ops with
  | nil => intro ini; rfl
  | cons op rest ih =>
    intro ini
    rw [List.foldl_cons, ih (applyOp ini op), ordered_applyOp]

theorem ordered_build (flag : Bool) (ops : List Op) : (build flag ops).ordered = flag :=
  ordered_foldl ops (NewINI flag)

theorem Sections_eq_keys (ini : INI) (h : iniWF ini) :
    ini.Sections = ini.sections.map Prod.fst := by
  unfold INI.Sections
  by_cases ho : ini.ordered = true
  · rw [if_neg (by simp [ho]), h.2.1, if_pos ho]
  · have ho' : ini.ordered = false := by simpa using ho
    rw [if_pos (by simp [ho'])]

theorem Options_eq_keys (ini : INI) (s : Str) (o : iniOptions) (h : iniWF ini)
    (hf : mapFind ini.sections s = some o) :
    ini.Options s = o.options.map Prod.fst := by
  have hwf := h.2.2 (s, o) (mapFind_mem _ _ _ hf)
  unfold INI.Options
  rw [hf]
  show (if (!o.ordered) = true then o.options.map Prod.fst else o.optionNames)
      = o.options.map Prod.fst
  by_cases ho : o.ordered = true
  · rw [if_neg (by simp [ho]), hwf.2.2, if_pos (hwf.1 ▸ ho)]
  · have ho' : o.ordered = false := by simpa using ho
    rw [if_pos (by simp [ho'])]

theorem takeWhile_append_all (p : Char → Bool) (k r : Str) (hk : ∀ c ∈ k, p c = true) :
    (k ++ r).takeWhile p = k ++ r.takeWhile p := by
  induction k with
  | nil => simp
  | cons c rest ih =>
    have hc : p c = true := hk c (List.mem_cons_self c rest)
    simp only [List.cons_append, List.takeWhile_cons, hc, if_true]
    rw [ih (fun d hd => hk d (List.mem_cons_of_mem c hd))]

theorem dropWhile_append_all (p : Char → Bool) (k r : Str) (hk : ∀ c ∈ k, p c = true) :
    (k ++ r).dropWhile p = r.dropWhile p := by
  induction k with
  | nil => simp
  | cons c rest ih =>
    have hc : p c = true := hk c (List.mem_cons_self c rest)
    simp only [List.cons_append, List.dropWhile_cons, hc, if_true]
    exact ih (fun d hd => hk d (List.mem_cons_of_mem c hd))

theorem all_bne_eq_of_not_mem (k : Str) (h : '=' ∉ k) : ∀ c ∈ k, (c != '=') = true := by
  intro c hc
  have hne : c ≠ '=' := fun he => h (he ▸ hc)
  simpa using hne

theorem assignMatch_no_eq (l : Str) (h : '=' ∉ l) : assignMatch l = none := by
  have hdrop : l.dropWhile (fun c => c != '=') = [] := by
    rw [List.dropWhile_eq_nil_iff]
    exact all_bne_eq_of_not_mem l h
  simp [assignMatch, hdrop]

theorem assignMatch_optLine (k v : Str) (hk : '=' ∉ k) (hnl : '\n' ∉ v) :
    assignMatch (k ++ ' ' :: '=' :: ' ' :: v) = some (k ++ [' '], ' ' :: v) := by
  have hall := all_bne_eq_of_not_mem k hk
  have h1 : ((' ' : Char) != '=') = true := rfl
  have h2 : (('=' : Char) != '=') = false := rfl
  have htake : (k ++ ' ' :: '=' :: ' ' :: v).takeWhile (fun c => c != '=') = k ++ [' '] := by
    rw [takeWhile_append_all _ k _ hall]
    simp [List.takeWhile_cons, h1, h2]
  have hdrop : (k ++ ' ' :: '=' :: ' ' :: v).dropWhile (fun c => c != '=')
      = '=' :: ' ' :: v := by
    rw [dropWhile_append_all _ k _ hall]
    simp [List.dropWhile_cons, h1, h2]
  have hguard : (k ++ [' '] ≠ []) ∧ '\n' ∉ ' ' :: v := by
    constructor
    · simp
    · simp only [List.mem_cons, not_or]
      exact ⟨by decide, hnl⟩
  simp [assignMatch, hdrop, htake, hguard]

theorem sectionMatch_header (s : Str) (hnl : '\n' ∉ s) :
    sectionMatch ('[' :: (s ++ [']'])) = some s := by
  have hlen : 2 ≤ ('[' :: (s ++ [']'])).length := by simp
  have hhead : ('[' :: (s ++ [']'])).head? = some '[' := rfl
  have hlast : ('[' :: (s ++ [']'])).getLast? = some ']' := by
    rw [← List.cons_append, List.getLast?_concat]
  have hmid : (('[' :: (s ++ [']'])).drop 1).dropLast = s := by
    simp
  unfold sectionMatch
  rw [if_pos ⟨hlen, hhead, hlast⟩, hmid, if_neg hnl]

theorem noEdgeSpace_of (c d : Char) (mid : Str) (hc : isSpace c = false)
    (hd : isSpace d = false) : noEdgeSpace (c :: (mid ++ [d])) = true := by
  simp only [noEdgeSpace, Bool.and_eq_true, Bool.not_eq_true']
  refine ⟨hc, ?_⟩
  have hlast : (c :: (mid ++ [d])).getLastD ' ' = d := by
    rw [← List.cons_append, List.getLastD_concat]
  rw [hlast]
  exact hd

theorem noEdgeSpace_header (s : Str) : noEdgeSpace ('[' :: (s ++ [']'])) = true :=
  noEdgeSpace_of '[' ']' s (by decide) (by decide)

theorem noEdgeSpace_optLine (k v : Str) (hk : noEdgeSpace k = true)
    (hv : noEdgeSpace v = true) : noEdgeSpace (k ++ ' ' :: '=' :: ' ' :: v) = true := by
  obtain ⟨c, k2, rfl, hc⟩ := noEdgeSpace_head k hk
  obtain ⟨m, d, rfl, hd⟩ := noEdgeSpace_last v hv
  have he : (c :: k2) ++ ' ' :: '=' :: ' ' :: (m ++ [d])
      = c :: ((k2 ++ (' ' :: '=' :: ' ' :: m)) ++ [d]) := by simp
  rw [he]
  exact noEdgeSpace_of c d _ hc hd

theorem HasSection_exists (d : INI) (s : Str) (h : d.HasSection s = true) :
    ∃ opts, mapFind d.sections s = some opts := by
  unfold INI.HasSection at h
  rcases hh : mapFind d.sections s with _ | o
  · rw [hh] at h; simp at h
  · exact ⟨o, rfl⟩

theorem GoodDoc_new (flag : Bool) : GoodDoc (NewINI flag) := by
  intro p hp; simp [NewINI] at hp

theorem GoodDoc_AddSection (d : INI) (s : Str) (hs : goodText s) (h : GoodDoc d) :
    GoodDoc (d.AddSection s).2 := by
  by_cases hp : d.HasSection s = true
  · rw [AddSection_present d s hp]; exact h
  · rw [AddSection_absent d s (by simpa using hp)]
    intro p hpmem
    rcases List.mem_append.mp hpmem with hm | hm
    · exact h p hm
    · simp only [List.mem_singleton] at hm
      subst hm
      refine ⟨hs, ?_⟩
      intro kv hkv
      simp [newOptions] at hkv

theorem GoodDoc_AddOption (d : INI) (s k v : Str) (hs : goodText s) (hk : goodOptName k)
    (hv : goodText v) (h : GoodDoc d) : GoodDoc (d.AddOption s k v).2 := by
  by_cases hp : d.HasSection s = true
  · obtain ⟨opts, hfind⟩ := HasSection_exists d s hp
    rw [AddOption_found d s k v opts hfind]
    intro p hpmem
    rcases mem_mapInsert _ _ _ _ hpmem with hm | hm
    · exact h p hm
    · subst hm
      have hd := h (s, opts) (mapFind_mem _ _ _ hfind)
      refine ⟨hd.1, ?_⟩
      rw [add_shape]
      intro kv hkv
      rcases mem_mapInsert _ _ _ _ hkv with hm2 | hm2
      · exact hd.2 kv hm2
      · subst hm2; exact ⟨hk, hv⟩
  · rw [AddOption_absent d s k v (by simpa using hp)]
    intro p hpmem
    rcases List.mem_append.mp hpmem with hm | hm
    · exact h p hm
    · simp only [List.mem_singleton] at hm
      subst hm
      refine ⟨hs, ?_⟩
      rw [add_shape]
      intro kv hkv
      rcases mem_mapInsert _ _ _ _ hkv with hm2 | hm2
      · simp [newOptions] at hm2
      · subst hm2; exact ⟨hk, hv⟩

theorem GoodDoc_foldl (ops : List Op) :
    ∀ d : INI, GoodDoc d → (∀ op ∈ ops, addOnlyGood op) →
      GoodDoc (ops.foldl applyOp d) := by
  induction ops with
  | nil => intro d h _; exact h
  | cons op rest ih =>
    intro d h hops
    have hop := hops op (List.mem_cons_self op rest)
    have hrest := fun op' hmem => hops op' (List.mem_cons_of_mem op hmem)
    cases op with
    | addSec s => exact ih _ (GoodDoc_AddSection d s hop h) hrest
    | addOpt s k v => exact ih _ (GoodDoc_AddOption d s k v hop.1 hop.2.1 hop.2.2 h) hrest
    | rmSec s => exact absurd hop id
    | rmOpt s k => exact absurd hop id

theorem GoodDoc_build (flag : Bool) (ops : List Op)
    (h : ∀ op ∈ ops, addOnlyGood op) : GoodDoc (build flag ops) :=
  GoodDoc_foldl ops (NewINI flag) (GoodDoc_new flag) h

theorem catMap_map {α β γ : Type} (f : β → List γ) (g : α → β) (l : List α) :
    catMap f (l.map g) = catMap (fun a => f (g a)) l := by
  induction l with
  | nil => rfl
  | cons a rest ih => simp [catMap, ih]

theorem catMap_congr {α β : Type} (f g : α → List β) (l : List α)
    (h : ∀ a ∈ l, f a = g a) : catMap f l = catMap g l := by
  induction l with
  | nil => rfl
  | cons a rest ih =>
    simp only [catMap]
    rw [h a (List.mem_cons_self a rest),
      ih (fun a' ha' => h a' (List.mem_cons_of_mem a ha'))]

theorem mem_catMap {α β : Type} (f : α → List β) (l : List α) (b : β)
    (h : b ∈ catMap f l) : ∃ a ∈ l, b ∈ f a := by
  induction l with
  | nil => simp [catMap] at h
  | cons a rest ih =>
    simp only [catMap] at h
    rcases List.mem_append.mp h with hm | hm
    · exact ⟨a, List.mem_cons_self a rest, hm⟩
    · obtain ⟨a', ha', hb⟩ := ih hm
      exact ⟨a', List.mem_cons_of_mem a ha', hb⟩

theorem map_catMap {α β γ : Type} (f : β → γ) (g : α → List β) (l : List α) :
    (catMap g l).map f = catMap (fun a => (g a).map f) l := by
  induction l with
  | nil => rfl
  | cons a rest ih => simp [catMap, ih]

theorem foldAdd_shape (flag : Bool) (kvs : List (Str × Str)) :
    ∀ (names0 : List Str) (opts0 : List (Str × Str)),
    (((opts0 ++ kvs).map Prod.fst).Nodup) →
    kvs.foldl (fun (o : iniOptions) kv => (o.add kv.1 kv.2).2)
        { ordered := flag, optionNames := names0, options := opts0 }
      = { ordered := flag,
          optionNames := names0 ++ (if flag then kvs.map Prod.fst else []),
          options := opts0 ++ kvs } := by
  induction kvs with
  | nil =>
    intro names0 opts0 _
    cases flag <;> simp
  | cons kv rest ih =>
    obtain ⟨k, v⟩ := kv
    intro names0 opts0 hnd
    have hk : k ∉ opts0.map Prod.fst := by
      intro hmem
      rw [List.map_append] at hnd
      have hdisj := (List.nodup_append.mp hnd).2.2
      exact hdisj hmem (by simp)
    have hfind : mapFind opts0 k = none := (mapFind_eq_none_iff _ _).mpr hk
    have hex : ({ ordered := flag, optionNames := names0, options := opts0 }
        : iniOptions).exist k = false := by
      unfold iniOptions.exist
      simp [hfind]
    rw [List.foldl_cons, add_shape]
    simp only [hex, Bool.not_false, Bool.and_true]
    rw [mapInsert_absent _ _ _ hfind]
    have hnd' : (((opts0 ++ [(k, v)]) ++ rest).map Prod.fst).Nodup := by
      rw [List.append_assoc]
      exact hnd
    rw [ih (names0 ++ (if flag then [k] else [])) (opts0 ++ [(k, v)]) hnd']
    cases flag <;> simp

theorem replayOpts_shape (s : Str) (kvs : List (Str × Str)) :
    ∀ (L : List (Str × iniOptions)) (o0 : iniOptions) (names : List Str) (flag : Bool),
    s ∉ L.map Prod.fst →
    replayOpts s { ordered := flag, sectionNames := names, sections := L ++ [(s, o0)] } kvs
      = { ordered := flag, sectionNames := names,
          sections := L ++ [(s, kvs.foldl (fun (o : iniOptions) kv => (o.add kv.1 kv.2).2) o0)] } := by
  induction kvs with
  | nil =>
    intro L o0 names flag _
    simp [replayOpts]
  | cons kv rest ih =>
    obtain ⟨k, v⟩ := kv
    intro L o0 names flag hnot
    have hfind : mapFind (L ++ [(s, o0)]) s = some o0 := mapFind_append_absent L s o0 hnot
    unfold replayOpts
    rw [List.foldl_cons]
    have hstep : (({ ordered := flag, sectionNames := names, sections := L ++ [(s, o0)] }
        : INI).AddOption s k v).2
        = { ordered := flag, sectionNames := names,
            sections := L ++ [(s, (o0.add k v).2)] } := by
      rw [AddOption_found _ s k v o0 hfind]
      simp only
      rw [mapInsert_append_absent _ _ _ _ hnot]
    rw [hstep]
    have := ih L (o0.add k v).2 names flag hnot
    unfold replayOpts at this
    rw [this, List.foldl_cons]

theorem replay_shape (flag : Bool) (S : List (Str × iniOptions)) :
    ∀ ini : INI, ini.ordered = flag →
    (((ini.sections ++ S).map Prod.fst).Nodup) →
    (∀ p ∈ S, optsWF flag p.2) →
    replay ini S = { ordered := flag,
                     sectionNames := ini.sectionNames ++ (if flag then S.map Prod.fst else []),
                     sections := ini.sections ++ S } := by
  induction S with
  | nil =>
    intro ini h1 _ _
    rw [replay]
    simp only [List.foldl_nil, List.map_nil, List.append_nil]
    rw [← h1]
    cases flag <;> simp
  | cons p rest ih =>
    obtain ⟨s, o⟩ := p
    intro ini h1 hnd hwf
    have hwfo := hwf (s, o) (List.mem_cons_self _ _)
    have hnots : s ∉ ini.sections.map Prod.fst := by
      intro hmem
      rw [List.map_append] at hnd
      have hdisj := (List.nodup_append.mp hnd).2.2
      exact hdisj hmem (by rw [List.map_cons]; exact List.mem_cons_self _ _)
    have hs : ini.HasSection s = false :=
      (HasSection_eq_false_iff ini s).mpr ((mapFind_eq_none_iff _ _).mpr hnots)
    rw [replay, List.foldl_cons]
    have hsec : replaySection ini (s, o)
        = { ordered := flag,
            sectionNames := ini.sectionNames ++ (if flag then [s] else []),
            sections := ini.sections ++ [(s, o)] } := by
      unfold replaySection
      rw [AddSection_absent ini s hs]
      simp only
      rw [h1]
      rw [replayOpts_shape s o.options ini.sections (newOptions flag)
        (ini.sectionNames ++ (if flag then [s] else [])) flag hnots]
      have hndo : ((([] : List (Str × Str)) ++ o.options).map Prod.fst).Nodup := by
        simpa using hwfo.2.1
      simp only [newOptions]
      rw [foldAdd_shape flag o.options [] [] hndo]
      simp only [List.nil_append]
      have hrepl : ({ ordered := flag,
                      optionNames := (if flag then o.options.map Prod.fst else []),
                      options := o.options } : iniOptions) = o := by
        obtain ⟨ho1, ho2, ho3⟩ := hwfo
        cases o
        simp only at ho1 ho3 ⊢
        rw [← ho3, ← ho1]
      rw [hrepl]
    rw [hsec]
    have hnd' : ((((ini.sections ++ [(s, o)]) ++ rest).map Prod.fst).Nodup) := by
      rw [List.append_assoc]
      exact hnd
    have hrec := ih { ordered := flag,
                      sectionNames := ini.sectionNames ++ (if flag then [s] else []),
                      sections := ini.sections ++ [(s, o)] } rfl hnd'
      (fun p hp => hwf p (List.mem_cons_of_mem _ hp))
    rw [replay] at hrec
    rw [hrec]
    cases flag <;> simp

theorem parse_optEvents (secName : Str) (kvs : List (Str × Str)) :
    ∀ (n : Nat) (ini : INI) (evs : List REvent),
    (∀ kv ∈ kvs, goodOptName kv.1 ∧ goodText kv.2) →
    parse ((kvs.map (fun kv =>
        (⟨(kv.1 ++ ' ' :: '=' :: ' ' :: kv.2) ++ ['\n'], none⟩ : REvent))) ++ evs) n secName ini
      = parse evs (n + kvs.length) secName (replayOpts secName ini kvs) := by
  induction kvs with
  | nil =>
    intro n ini evs _
    simp [replayOpts]
  | cons kv rest ih =>
    obtain ⟨k, v⟩ := kv
    intro n ini evs hgood
    obtain ⟨⟨⟨hkp, hke⟩, hk1, hk2⟩, hvp, hve⟩ := hgood (k, v) (List.mem_cons_self _ _)
    have hne : noEdgeSpace (k ++ ' ' :: '=' :: ' ' :: v) = true := noEdgeSpace_optLine k v hke hve
    have hline : trimSpace ((k ++ ' ' :: '=' :: ' ' :: v) ++ ['\n'])
        = k ++ ' ' :: '=' :: ' ' :: v :=
      trimSpace_append_space _ '\n' (by decide) hne
    have hlne : ¬(k ++ ' ' :: '=' :: ' ' :: v = []) := by
      obtain ⟨c, k2, hk, _⟩ := noEdgeSpace_head k hke
      subst hk; simp
    have hcomm : ¬((k ++ ' ' :: '=' :: ' ' :: v).head? = some ';'
        ∨ (k ++ ' ' :: '=' :: ' ' :: v).head? = some '#') := by
      obtain ⟨c, k2, hk, _⟩ := noEdgeSpace_head k hke
      subst hk
      simp only [List.cons_append, List.head?_cons]
      push_neg
      refine ⟨by simpa using hk1, by simpa using hk2⟩
    have hassign := assignMatch_optLine k v hkp.2.1 hvp.2.2.2.2
    have htrimk : trimSpace (k ++ [' ']) = k := trimSpace_append_space k ' ' (by decide) hke
    have htrimv : trimSpace (' ' :: v) = v := trimSpace_space_cons v ' ' (by decide) hve
    simp only [List.map_cons, List.cons_append, parse, hline]
    rw [if_neg hlne, if_neg hcomm]
    simp only [hassign, htrimk, htrimv]
    rw [if_neg (by simp : ¬((none : Option RErr) = some RErr.eof))]
    simp only [List.append_eq]
    rw [ih (n + 1) (ini.AddOption secName k v).2 evs
      (fun kv hm => hgood kv (List.mem_cons_of_mem _ hm))]
    have hlen : n + 1 + rest.length = n + (rest.length + 1) := by omega
    rw [hlen]
    simp only [List.length_cons]
    rfl

theorem parse_blank (secName : Str) (m : Nat) (ini : INI) (evs : List REvent) :
    parse ((⟨['\n'], none⟩ : REvent) :: evs) m secName ini
      = parse evs (m + 1) secName ini := rfl

theorem parse_eofEvent (n : Nat) (cur : Str) (ini : INI) :
    parse [(⟨[], some RErr.eof⟩ : REvent)] n cur ini = (ini, none) := rfl

theorem parse_events (S : List (Str × iniOptions)) :
    ∀ (n : Nat) (cur : Str) (ini : INI),
    (∀ p ∈ S, goodText p.1 ∧ ∀ kv ∈ p.2.options, goodOptName kv.1 ∧ goodText kv.2) →
    parse (catMap lineEvents S ++ [(⟨[], some RErr.eof⟩ : REvent)]) n cur ini
      = (replay ini S, none) := by
  induction S with
  | nil =>
    intro n cur ini _
    exact parse_eofEvent n cur ini
  | cons p rest ih =>
    obtain ⟨s, o⟩ := p
    intro n cur ini hgood
    obtain ⟨⟨hsp, hse⟩, hopts⟩ := hgood (s, o) (List.mem_cons_self _ _)
    have hline : trimSpace (('[' :: (s ++ [']'])) ++ ['\n']) = '[' :: (s ++ [']']) :=
      trimSpace_append_space _ '\n' (by decide) (noEdgeSpace_header s)
    have hni : ¬('[' :: (s ++ [']']) = []) := by simp
    have hcomm : ¬(('[' :: (s ++ [']'])).head? = some ';'
        ∨ ('[' :: (s ++ [']'])).head? = some '#') := by
      simp
    have hnoeq : '=' ∉ '[' :: (s ++ [']']) := by
      simp only [List.mem_cons, List.mem_append, List.mem_singleton]
      push_neg
      exact ⟨by decide, hsp.2.1, by decide⟩
    have hassign : assignMatch ('[' :: (s ++ [']'])) = none := assignMatch_no_eq _ hnoeq
    have hsec : sectionMatch ('[' :: (s ++ [']'])) = some s := sectionMatch_header s hsp.2.2.2.2
    have htrims : trimSpace s = s := trimSpace_eq_self s hse
    have hevs : catMap lineEvents ((s, o) :: rest) ++ [(⟨[], some RErr.eof⟩ : REvent)]
        = (⟨('[' :: (s ++ [']'])) ++ ['\n'], none⟩ : REvent) ::
          ((o.options.map (fun kv =>
              (⟨(kv.1 ++ ' ' :: '=' :: ' ' :: kv.2) ++ ['\n'], none⟩ : REvent))) ++
            ((⟨['\n'], none⟩ : REvent) ::
              (catMap lineEvents rest ++ [(⟨[], some RErr.eof⟩ : REvent)]))) := by
      simp [catMap, lineEvents, entryLines]
    rw [hevs]
    simp only [parse, hline]
    rw [if_neg hni, if_neg hcomm]
    simp only [hassign, hsec, htrims]
    rw [if_neg (by simp : ¬((none : Option RErr) = some RErr.eof))]
    rw [parse_optEvents s o.options (n + 1) (ini.AddSection s).2
      ((⟨['\n'], none⟩ : REvent) :: (catMap lineEvents rest
        ++ [(⟨[], some RErr.eof⟩ : REvent)])) hopts]
    rw [parse_blank]
    rw [ih _ s _ (fun p hp => hgood p (List.mem_cons_of_mem _ hp))]
    rfl

theorem writeLines_eq (d : INI) (hwf : iniWF d) :
    writeLines d = catMap entryLines d.sections := by
  unfold writeLines
  rw [Sections_eq_keys d hwf, catMap_map]
  apply catMap_congr
  intro p hp
  obtain ⟨s, o⟩ := p
  have hfind : mapFind d.sections s = some o := mapFind_of_mem_nodup _ _ _ hwf.1 hp
  have hopt := Options_eq_keys d s o hwf hfind
  have hwfo := hwf.2.2 (s, o) hp
  unfold entryLines
  simp only
  rw [hopt]
  congr 1
  congr 1
  rw [List.map_map]
  apply List.map_congr_left
  intro kv hkv
  have hv : mapFind o.options kv.1 = some kv.2 :=
    mapFind_of_mem_nodup _ _ _ hwfo.2.1 hkv
  have hget : d.GetOption s kv.1 = (kv.2, true) := by
    unfold INI.GetOption
    rw [hfind]
    show o.get kv.1 = (kv.2, true)
    unfold iniOptions.get iniOptions.exist
    rw [hv]
    simp
  simp only [Function.comp]
  rw [hget]

theorem splitNL_ne_nil (s : Str) : splitNL s ≠ [] := by
  induction s with
  | nil => simp [splitNL]
  | cons c cs ih =>
    unfold splitNL
    rcases h : splitNL cs with _ | ⟨l, ls⟩
    · simp
    · by_cases hc : c = '\n' <;> simp [hc]

theorem splitNL_cons (c : Char) (cs : Str) :
    splitNL (c :: cs) = match splitNL cs with
      | [] => [[]]
      | l :: ls => if c = '\n' then [] :: l :: ls else (c :: l) :: ls := rfl

theorem splitNL_line (l rest : Str) (h : '\n' ∉ l) :
    splitNL (l ++ '\n' :: rest) = l :: splitNL rest := by
  induction l with
  | nil =>
    simp only [List.nil_append]
    rcases hs : splitNL rest with _ | ⟨x, xs⟩
    · exact absurd hs (splitNL_ne_nil rest)
    · rw [splitNL_cons, hs]
      simp
  | cons c cs ih =>
    simp only [List.mem_cons, not_or] at h
    have hc : ¬(c = '\n') := fun he => h.1 he.symm
    simp only [List.cons_append]
    rw [splitNL_cons, ih h.2]
    simp [hc]

theorem splitNL_join (lines : List Str) (h : ∀ l ∈ lines, '\n' ∉ l) :
    splitNL (catMap (fun l => l ++ ['\n']) lines) = lines ++ [[]] := by
  induction lines with
  | nil => rfl
  | cons l rest ih =>
    simp only [catMap, List.append_assoc, List.singleton_append]
    rw [splitNL_line l _ (h l (List.mem_cons_self l rest)),
      ih (fun l' hl' => h l' (List.mem_cons_of_mem l hl'))]
    rfl

theorem traceOfPieces_shape (lines : List Str) :
    traceOfPieces (lines ++ [[]])
      = lines.map (fun l => (⟨l ++ ['\n'], none⟩ : REvent))
        ++ [(⟨[], some RErr.eof⟩ : REvent)] := by
  induction lines with
  | nil => rfl
  | cons l rest ih =>
    rcases hr : rest ++ [[]] with _ | ⟨x, xs⟩
    · exact absurd hr (by simp)
    · have h1 : (l :: rest) ++ [[]] = l :: x :: xs := by rw [List.cons_append, hr]
      rw [h1]
      rw [show traceOfPieces (l :: x :: xs)
          = (⟨l ++ ['\n'], none⟩ : REvent) :: traceOfPieces (x :: xs) from rfl]
      rw [← hr, ih]
      simp

theorem writeLines_no_newline (d : INI) (hwf : iniWF d) (hg : GoodDoc d) :
    ∀ l ∈ writeLines d, '\n' ∉ l := by
  intro l hl
  rw [writeLines_eq d hwf] at hl
  obtain ⟨p, hp, hline⟩ := mem_catMap _ _ _ hl
  obtain ⟨s, o⟩ := p
  obtain ⟨⟨hsp, _⟩, hopts⟩ := hg (s, o) hp
  unfold entryLines at hline
  rcases List.mem_cons.mp hline with h1 | h1
  · subst h1
    simp only [List.mem_cons, List.mem_append, List.mem_singleton, not_or]
    exact ⟨by decide, hsp.2.2.2.2, by decide⟩
  · rcases List.mem_append.mp h1 with h2 | h2
    · obtain ⟨kv, hkv, heq⟩ := List.mem_map.mp h2
      obtain ⟨⟨⟨hkp, _⟩, _, _⟩, hvp, _⟩ := hopts kv hkv
      subst heq
      simp only [List.mem_append, List.mem_cons, not_or]
      exact ⟨hkp.2.2.2.2, by decide, by decide, by decide, hvp.2.2.2.2⟩
    · simp only [List.mem_singleton] at h2
      subst h2
      simp

theorem roundTrip (d : INI) (hwf : iniWF d) (hg : GoodDoc d) :
    Read (WriteString d) d.ordered = (d, none) := by
  unfold Read stringTrace WriteString
  rw [splitNL_join _ (writeLines_no_newline d hwf hg)]
  rw [traceOfPieces_shape]
  rw [writeLines_eq d hwf]
  rw [map_catMap]
  rw [show (fun p => (entryLines p).map (fun l => (⟨l ++ ['\n'], none⟩ : REvent)))
      = lineEvents from rfl]
  rw [parse_events d.sections 1 [] (NewINI d.ordered) hg]
  rw [replay_shape d.ordered d.sections (NewINI d.ordered) rfl
    (by simpa using hwf.1) hwf.2.2]
  have hnames : ([] : List Str) ++ (if d.ordered then d.sections.map Prod.fst else [])
      = d.sectionNames := by
    rw [List.nil_append, ← hwf.2.1]
  rw [show (NewINI d.ordered).sectionNames = ([] : List Str) from rfl,
    show (NewINI d.ordered).sections = ([] : List (Str × iniOptions)) from rfl]
  rw [hnames, List.nil_append]

theorem parse_snd_eq_firstBad (evs : List REvent) :
    ∀ (n : Nat) (sec : Str) (ini : INI), (parse evs n sec ini).2 = firstBad evs n := by
  induction evs with
  | nil => intro n sec ini; rfl
  | cons ev evs ih =>
    intro n sec ini
    simp only [parse, firstBad]
    by_cases h1 : trimSpace ev.chunk = []
    · rw [if_pos h1]
      have hbad : ¬(lineBad ev.chunk = true) := by simp [lineBad, h1]
      rw [if_neg hbad]
      by_cases h0 : ev.err = some RErr.eof
      · rw [if_pos h0, if_pos h0]
      · rw [if_neg h0, if_neg h0, ih]
    · rw [if_neg h1]
      by_cases h2 : (trimSpace ev.chunk).head? = some ';'
          ∨ (trimSpace ev.chunk).head? = some '#'
      · rw [if_pos h2]
        have hbad : ¬(lineBad ev.chunk = true) := by simp [lineBad, h2]
        rw [if_neg hbad]
        by_cases h0 : ev.err = some RErr.eof
        · rw [if_pos h0, if_pos h0]
        · rw [if_neg h0, if_neg h0, ih]
      · rw [if_neg h2]
        rcases ha : assignMatch (trimSpace ev.chunk) with _ | kv
        · rcases hsm : sectionMatch (trimSpace ev.chunk) with _ | content
          · have hbad : lineBad ev.chunk = true := by
              simp [lineBad, h1, h2, ha, hsm]
            rw [if_pos hbad]
          · have hbad : ¬(lineBad ev.chunk = true) := by simp [lineBad, hsm]
            rw [if_neg hbad]
            simp only [ha, hsm]
            by_cases h0 : ev.err = some RErr.eof
            · rw [if_pos h0, if_pos h0]
            · rw [if_neg h0, if_neg h0, ih]
        · have hbad : ¬(lineBad ev.chunk = true) := by simp [lineBad, ha]
          rw [if_neg hbad]
          simp only [ha]
          by_cases h0 : ev.err = some RErr.eof
          · rw [if_pos h0, if_pos h0]
          · rw [if_neg h0, if_neg h0, ih]

theorem firstBad_traceOfPieces (pieces : List Str) :
    ∀ n : Nat, firstBad (traceOfPieces pieces) n
      = (((traceOfPieces pieces).enumFrom n).find? (fun q => lineBad q.2.chunk)).map
          (fun q => ({ Line := q.1, Source := trimSpace q.2.chunk } : ErrSyn)) := by
  induction pieces with
  | nil => intro n; rfl
  | cons l rest ih =>
    intro n
    rcases rest with _ | ⟨x, xs⟩
    · rw [show traceOfPieces [l] = [(⟨l, some RErr.eof⟩ : REvent)] from rfl]
      rw [List.enumFrom_cons]
      by_cases hb : lineBad l = true
      · rw [List.find?_cons_of_pos _ (by simpa using hb)]
        simp [firstBad, hb]
      · rw [List.find?_cons_of_neg _ (by simpa using hb)]
        simp [firstBad, hb]
    · rw [show traceOfPieces (l :: x :: xs)
          = (⟨l ++ ['\n'], none⟩ : REvent) :: traceOfPieces (x :: xs) from rfl]
      rw [List.enumFrom_cons]
      by_cases hb : lineBad (l ++ ['\n']) = true
      · rw [List.find?_cons_of_pos _ (by simpa using hb)]
        simp [firstBad, hb]
      · rw [List.find?_cons_of_neg _ (by simpa using hb)]
        simp only [firstBad]
        rw [if_neg hb, if_neg (by simp : ¬((none : Option RErr) = some RErr.eof))]
        exact ih (n + 1)

theorem mapFind_append_ne {α : Type} (L : List (Str × α)) (s t : Str) (o : α)
    (h : t ≠ s) : mapFind (L ++ [(s, o)]) t = mapFind L t := by
  induction L with
  | nil =>
    have hne : ¬(s = t) := fun he => h he.symm
    simp [mapFind, hne]
  | cons p rest ih =>
    obtain ⟨a, b⟩ := p
    by_cases ha : a = t
    · simp [mapFind, ha]
    · simp [mapFind, ha, ih]

theorem filter_erase_self (l : List Str) (s : Str) :
    (l.erase s).filter (fun x => x ≠ s) = l.filter (fun x => x ≠ s) := by
  induction l with
  | nil => rfl
  | cons a t ih =>
    by_cases ha : a = s
    · subst ha
      rw [List.erase_cons_head]
      rw [List.filter_cons]
      simp
    · rw [List.erase_cons_tail (by simpa using ha)]
      rw [List.filter_cons, List.filter_cons]
      simp only [ha, ih]

theorem Options_some (d : INI) (s : Str) (o : iniOptions)
    (hf : mapFind d.sections s = some o) : d.Options s = o.getOptions := by
  unfold INI.Options
  rw [hf]

theorem Options_none (d : INI) (s : Str) (hf : mapFind d.sections s = none) :
    d.Options s = [] := by
  unfold INI.Options
  rw [hf]

theorem getOptions_ordered (o : iniOptions) (ho : o.ordered = true) :
    o.getOptions = o.optionNames := by
  unfold iniOptions.getOptions
  rw [ho]
  simp

theorem Options_ext (d d' : INI) (t : Str)
    (h : mapFind d'.sections t = mapFind d.sections t) : d'.Options t = d.Options t := by
  unfold INI.Options
  rw [h]

theorem Sections_ordered (d : INI) (ho : d.ordered = true) :
    d.Sections = d.sectionNames := by
  unfold INI.Sections
  rw [ho]
  simp

theorem Sections_AddSection_absent (d : INI) (s : Str) (ho : d.ordered = true)
    (hs : d.HasSection s = false) :
    (d.AddSection s).2.Sections = d.Sections ++ [s] := by
  rw [AddSection_absent d s hs]
  simp [INI.Sections, ho]

theorem Sections_AddOption_found (d : INI) (s k v : Str) (opts : iniOptions)
    (ho : d.ordered = true) (hf : mapFind d.sections s = some opts) :
    (d.AddOption s k v).2.Sections = d.Sections := by
  rw [AddOption_found d s k v opts hf]
  simp [INI.Sections, ho]

theorem Sections_AddOption_absent (d : INI) (s k v : Str) (ho : d.ordered = true)
    (hs : d.HasSection s = false) :
    (d.AddOption s k v).2.Sections = d.Sections ++ [s] := by
  rw [AddOption_absent d s k v hs]
  simp [INI.Sections, ho]

theorem Sections_RemoveSection_present (d : INI) (s : Str) (hwf : iniWF d)
    (ho : d.ordered = true) (hs : d.HasSection s = true) :
    (d.RemoveSection s).2.Sections = d.Sections.erase s := by
  have h1 : removeOrder d.sectionNames s = d.sectionNames.erase s := by
    apply removeOrder_eq_erase
    · rw [hwf.2.1, if_pos ho]
      exact hwf.1
    · rw [hwf.2.1, if_pos ho]
      unfold INI.HasSection at hs
      exact (mapFind_isSome_iff _ _).mp hs
  rw [RemoveSection_present d s hs]
  simp [INI.Sections, ho, h1]

theorem Sections_RemoveOption (d : INI) (s k : Str) (ho : d.ordered = true) :
    (d.RemoveOption s k).2.Sections = d.Sections := by
  by_cases hs : d.HasSection s = true
  · obtain ⟨opts, hf⟩ := HasSection_exists d s hs
    rw [RemoveOption_found d s k opts hf]
    simp [INI.Sections, ho]
  · rw [RemoveOption_noSection d s k (by simpa using hs)]

theorem Options_AddSection_ne (d : INI) (s t : Str) (ht : t ≠ s) :
    (d.AddSection s).2.Options t = d.Options t := by
  by_cases hs : d.HasSection s = true
  · rw [AddSection_present d s hs]
  · rw [AddSection_absent d s (by simpa using hs)]
    exact Options_ext d _ t (mapFind_append_ne d.sections s t _ ht)

theorem Options_AddOption_ne (d : INI) (s k v t : Str) (ht : t ≠ s) :
    (d.AddOption s k v).2.Options t = d.Options t := by
  by_cases hs : d.HasSection s = true
  · obtain ⟨opts, hf⟩ := HasSection_exists d s hs
    rw [AddOption_found d s k v opts hf]
    exact Options_ext d _ t (mapFind_mapInsert_ne d.sections s t _ ht)
  · rw [AddOption_absent d s k v (by simpa using hs)]
    exact Options_ext d _ t (mapFind_append_ne d.sections s t _ ht)

theorem Options_RemoveSection_ne (d : INI) (s t : Str) (ht : t ≠ s) :
    (d.RemoveSection s).2.Options t = d.Options t := by
  by_cases hs : d.HasSection s = true
  · rw [RemoveSection_present d s hs]
    exact Options_ext d _ t (mapFind_mapErase_ne d.sections s t ht)
  · rw [RemoveSection_absent d s (by simpa using hs)]

theorem Options_RemoveOption_ne (d : INI) (s k t : Str) (ht : t ≠ s) :
    (d.RemoveOption s k).2.Options t = d.Options t := by
  by_cases hs : d.HasSection s = true
  · obtain ⟨opts, hf⟩ := HasSection_exists d s hs
    rw [RemoveOption_found d s k opts hf]
    exact Options_ext d _ t (mapFind_mapInsert_ne d.sections s t _ ht)
  · rw [RemoveOption_noSection d s k (by simpa using hs)]

theorem Options_AddOption_self_filter (d : INI) (s k v : Str) (hwf : iniWF d)
    (ho : d.ordered = true) :
    ((d.AddOption s k v).2.Options s).filter (fun x => x ≠ k)
      = (d.Options s).filter (fun x => x ≠ k) := by
  by_cases hs : d.HasSection s = true
  · obtain ⟨opts, hf⟩ := HasSection_exists d s hs
    have hwfo := hwf.2.2 (s, opts) (mapFind_mem _ _ _ hf)
    have hoo : opts.ordered = true := by rw [hwfo.1, ho]
    rw [AddOption_found d s k v opts hf]
    rw [Options_some _ s (opts.add k v).2 (mapFind_mapInsert_self d.sections s _)]
    rw [Options_some d s opts hf]
    have haddord : (opts.add k v).2.ordered = true := by rw [add_shape]; exact hoo
    rw [getOptions_ordered ((opts.add k v).2) haddord, getOptions_ordered opts hoo]
    have hnames : (opts.add k v).2.optionNames
        = opts.optionNames ++ (if opts.ordered && !opts.exist k then [k] else []) := by
      rw [add_shape]
    rw [hnames]
    by_cases he : opts.exist k = true
    · simp [he]
    · have he' : opts.exist k = false := by simpa using he
      simp only [he', hoo, Bool.not_false, Bool.and_true, if_pos rfl]
      rw [List.filter_append]
      simp
  · have hs' : d.HasSection s = false := by simpa using hs
    have hfn : mapFind d.sections s = none := (HasSection_eq_false_iff d s).mp hs'
    have hnot : s ∉ d.sections.map Prod.fst := (mapFind_eq_none_iff _ _).mp hfn
    rw [AddOption_absent d s k v hs']
    rw [Options_none d s hfn]
    rw [Options_some _ s _ (mapFind_append_absent d.sections s _ hnot)]
    rw [add_shape]
    rw [getOptions_ordered _ ho]
    simp [newOptions, iniOptions.exist, mapFind, ho]

theorem Options_RemoveOption_self_filter (d : INI) (s k : Str) (hwf : iniWF d)
    (ho : d.ordered = true) :
    ((d.RemoveOption s k).2.Options s).filter (fun x => x ≠ k)
      = (d.Options s).filter (fun x => x ≠ k) := by
  by_cases hs : d.HasSection s = true
  · obtain ⟨opts, hf⟩ := HasSection_exists d s hs
    have hwfo := hwf.2.2 (s, opts) (mapFind_mem _ _ _ hf)
    have hoo : opts.ordered = true := by rw [hwfo.1, ho]
    rw [RemoveOption_found d s k opts hf]
    by_cases he : opts.exist k = true
    · have hnd : opts.optionNames.Nodup := by
        rw [hwfo.2.2, if_pos (by rw [← hwfo.1, hoo])]
        exact hwfo.2.1
      have hmem : k ∈ opts.optionNames := by
        rw [hwfo.2.2, if_pos (by rw [← hwfo.1, hoo])]
        exact (exist_iff_mem_keys opts k).mp he
      rw [Options_some _ s (opts.remove k).2 (mapFind_mapInsert_self d.sections s _)]
      rw [Options_some d s opts hf]
      have hremord : (opts.remove k).2.ordered = true := by
        rw [remove_present opts k he]; exact hoo
      rw [getOptions_ordered ((opts.remove k).2) hremord, getOptions_ordered opts hoo]
      have hnames : (opts.remove k).2.optionNames
          = if opts.ordered then removeOrder opts.optionNames k else opts.optionNames := by
        rw [remove_present opts k he]
      rw [hnames]
      simp only [hoo, if_pos rfl]
      rw [removeOrder_eq_erase opts.optionNames k hnd hmem]
      exact filter_erase_self opts.optionNames k
    · have he' : opts.exist k = false := by simpa using he
      rw [remove_absent opts k he']
      rw [mapInsert_found_self d.sections s opts hf]
  · rw [RemoveOption_noSection d s k (by simpa using hs)]

theorem Options_AddOption_self_append (d : INI) (s k v : Str) (hwf : iniWF d)
    (ho : d.ordered = true) (hk : d.HasOption s k = false) :
    (d.AddOption s k v).2.Options s = d.Options s ++ [k] := by
  by_cases hs : d.HasSection s = true
  · obtain ⟨opts, hf⟩ := HasSection_exists d s hs
    have hwfo := hwf.2.2 (s, opts) (mapFind_mem _ _ _ hf)
    have hoo : opts.ordered = true := by rw [hwfo.1, ho]
    have he : opts.exist k = false := by
      unfold INI.HasOption at hk
      rw [hf] at hk
      exact hk
    rw [AddOption_found d s k v opts hf]
    rw [Options_some _ s (opts.add k v).2 (mapFind_mapInsert_self d.sections s _)]
    rw [Options_some d s opts hf]
    have haddord : (opts.add k v).2.ordered = true := by rw [add_shape]; exact hoo
    rw [getOptions_ordered ((opts.add k v).2) haddord, getOptions_ordered opts hoo]
    have hnames : (opts.add k v).2.optionNames
        = opts.optionNames ++ (if opts.ordered && !opts.exist k then [k] else []) := by
      rw [add_shape]
    rw [hnames]
    simp [hoo, he]
  · have hs' : d.HasSection s = false := by simpa using hs
    have hfn := (HasSection_eq_false_iff d s).mp hs'
    have hnot := (mapFind_eq_none_iff _ _).mp hfn
    rw [AddOption_absent d s k v hs', Options_none d s hfn]
    rw [Options_some _ s _ (mapFind_append_absent d.sections s _ hnot)]
    have haddord : ((newOptions d.ordered).add k v).2.ordered = true := by
      rw [add_shape]; exact ho
    rw [getOptions_ordered (((newOptions d.ordered).add k v).2) haddord]
    have hnames : ((newOptions d.ordered).add k v).2.optionNames
        = (newOptions d.ordered).optionNames
          ++ (if (newOptions d.ordered).ordered && !(newOptions d.ordered).exist k
              then [k] else []) := by
      rw [add_shape]
    rw [hnames]
    simp [newOptions, iniOptions.exist, mapFind, ho]

/-- Claim C4: for every Document in ordered mode (reachable by any call
sequence), listSections and listOptions return names in first-insertion
order: one further operation leaves the relative order of all other
section names unchanged, leaves the option lists of all other sections
unchanged, leaves the relative order of the other option names of the
touched section unchanged, and a fresh insertion appends its name at the
end of the respective list. -/
theorem goini_C4 (ops : List Op) (op : Op) :
    ((applyOp (build true ops) op).Sections).filter (fun x => x ≠ op.secArg)
        = ((build true ops).Sections).filter (fun x => x ≠ op.secArg)
    ∧ (∀ t : Str, t ≠ op.secArg →
        (applyOp (build true ops) op).Options t = (build true ops).Options t)
    ∧ (∀ s k v : Str, (op = Op.addOpt s k v ∨ op = Op.rmOpt s k) →
        ((applyOp (build true ops) op).Options s).filter (fun x => x ≠ k)
          = ((build true ops).Options s).filter (fun x => x ≠ k))
    ∧ (∀ s : Str, op = Op.addSec s → (build true ops).HasSection s = false →
        (applyOp (build true ops) op).Sections = (build true ops).Sections ++ [s])
    ∧ (∀ s k v : Str, op = Op.addOpt s k v → (build true ops).HasOption s k = false →
        (applyOp (build true ops) op).Options s = (build true ops).Options s ++ [k]) := by
  have hwf := iniWF_build true ops
  have ho := ordered_build true ops
  refine ⟨?_, ?_, ?_, ?_, ?_⟩
  · cases op with
    | addSec s =>
      simp only [applyOp, Op.secArg]
      by_cases hs : (build true ops).HasSection s = true
      · rw [AddSection_present _ s hs]
      · rw [Sections_AddSection_absent _ s ho (by simpa using hs)]
        rw [List.filter_append]
        simp
    | addOpt s k v =>
      simp only [applyOp, Op.secArg]
      by_cases hs : (build true ops).HasSection s = true
      · obtain ⟨opts, hf⟩ := HasSection_exists _ s hs
        rw [Sections_AddOption_found _ s k v opts ho hf]
      · rw [Sections_AddOption_absent _ s k v ho (by simpa using hs)]
        rw [List.filter_append]
        simp
    | rmSec s =>
      simp only [applyOp, Op.secArg]
      by_cases hs : (build true ops).HasSection s = true
      · rw [Sections_RemoveSection_present _ s hwf ho hs]
        exact filter_erase_self _ s
      · rw [RemoveSection_absent _ s (by simpa using hs)]
    | rmOpt s k =>
      simp only [applyOp, Op.secArg]
      rw [Sections_RemoveOption _ s k ho]
  · intro t ht
    cases op with
    | addSec s => exact Options_AddSection_ne _ s t (by simpa [Op.secArg] using ht)
    | addOpt s k v => exact Options_AddOption_ne _ s k v t (by simpa [Op.secArg] using ht)
    | rmSec s => exact Options_RemoveSection_ne _ s t (by simpa [Op.secArg] using ht)
    | rmOpt s k => exact Options_RemoveOption_ne _ s k t (by simpa [Op.secArg] using ht)
  · intro s k v hop
    rcases hop with h | h
    · subst h
      exact Options_AddOption_self_filter _ s k v hwf ho
    · subst h
      exact Options_RemoveOption_self_filter _ s k hwf ho
  · intro s h hs
    subst h
    exact Sections_AddSection_absent _ s ho hs
  · intro s k v h hk
    subst h
    exact Options_AddOption_self_append _ s k v hwf ho hk

theorem parse_skip_all (evs : List REvent) :
    ∀ (n : Nat) (sec : Str) (ini : INI),
    (∀ ev ∈ evs, trimSpace ev.chunk = []
      ∨ (trimSpace ev.chunk).head? = some ';' ∨ (trimSpace ev.chunk).head? = some '#') →
    parse evs n sec ini = (ini, none) := by
  induction evs with
  | nil => intro n sec ini _; rfl
  | cons ev evs ih =>
    intro n sec ini h
    have hev := h ev (List.mem_cons_self _ _)
    simp only [parse]
    by_cases hblank : trimSpace ev.chunk = []
    · rw [if_pos hblank]
      by_cases h0 : ev.err = some RErr.eof
      · rw [if_pos h0]
      · rw [if_neg h0]
        exact ih _ _ _ (fun e he => h e (List.mem_cons_of_mem _ he))
    · rw [if_neg hblank]
      have hcm : (trimSpace ev.chunk).head? = some ';'
          ∨ (trimSpace ev.chunk).head? = some '#' := by
        rcases hev with h1 | h2
        · exact absurd h1 hblank
        · exact h2
      rw [if_pos hcm]
      by_cases h0 : ev.err = some RErr.eof
      · rw [if_pos h0]
      · rw [if_neg h0]
        exact ih _ _ _ (fun e he => h e (List.mem_cons_of_mem _ he))

theorem enumFrom_find_none_iff {α : Type} (p : α → Bool) (l : List α) :
    ∀ n : Nat, ((List.enumFrom n l).find? (fun q => p q.2) = none)
      ↔ ∀ a ∈ l, p a = false := by
  induction l with
  | nil => intro n; simp
  | cons a t ih =>
    intro n
    rw [List.enumFrom_cons]
    by_cases hp : p a = true
    · rw [List.find?_cons_of_pos _ (by simpa using hp)]
      simp [hp]
    · rw [List.find?_cons_of_neg _ (by simpa using hp)]
      rw [ih (n + 1)]
      constructor
      · intro hh b hb
        rcases List.mem_cons.mp hb with hb | hb
        · subst hb
          simpa using hp
        · exact hh b hb
      · intro hh b hb
        exact hh b (List.mem_cons_of_mem _ hb)

theorem AddOption_fst (d : INI) (s k v : Str) : (d.AddOption s k v).1 = true := by
  by_cases hs : d.HasSection s = true
  · obtain ⟨opts, hf⟩ := HasSection_exists d s hs
    rw [AddOption_found d s k v opts hf]
  · rw [AddOption_absent d s k v (by simpa using hs)]

theorem AddOption_GetOption_self (d : INI) (s k v : Str) :
    (d.AddOption s k v).2.GetOption s k = (v, true) := by
  by_cases hs : d.HasSection s = true
  · obtain ⟨opts, hf⟩ := HasSection_exists d s hs
    rw [AddOption_found d s k v opts hf]
    unfold INI.GetOption
    rw [show mapFind (mapInsert d.sections s (opts.add k v).2) s = some (opts.add k v).2
      from mapFind_mapInsert_self d.sections s _]
    show (opts.add k v).2.get k = (v, true)
    have hopts : (opts.add k v).2.options = mapInsert opts.options k v := by
      rw [add_shape]
    unfold iniOptions.get iniOptions.exist
    rw [hopts, mapFind_mapInsert_self]
    simp
  · have hs' : d.HasSection s = false := by simpa using hs
    have hnot := (mapFind_eq_none_iff _ _).mp ((HasSection_eq_false_iff d s).mp hs')
    rw [AddOption_absent d s k v hs']
    unfold INI.GetOption
    rw [mapFind_append_absent _ _ _ hnot]
    show ((newOptions d.ordered).add k v).2.get k = (v, true)
    have hopts : ((newOptions d.ordered).add k v).2.options
        = mapInsert (newOptions d.ordered).options k v := by
      rw [add_shape]
    unfold iniOptions.get iniOptions.exist
    rw [hopts]
    simp [newOptions, mapFind]

theorem AddOption_HasOption_self (d : INI) (s k v : Str) :
    (d.AddOption s k v).2.HasOption s k = true := by
  by_cases hs : d.HasSection s = true
  · obtain ⟨opts, hf⟩ := HasSection_exists d s hs
    rw [AddOption_found d s k v opts hf]
    unfold INI.HasOption
    rw [show mapFind (mapInsert d.sections s (opts.add k v).2) s = some (opts.add k v).2
      from mapFind_mapInsert_self d.sections s _]
    show (opts.add k v).2.exist k = true
    have hopts : (opts.add k v).2.options = mapInsert opts.options k v := by
      rw [add_shape]
    unfold iniOptions.exist
    rw [hopts, mapFind_mapInsert_self]
    rfl
  · have hs' : d.HasSection s = false := by simpa using hs
    have hnot := (mapFind_eq_none_iff _ _).mp ((HasSection_eq_false_iff d s).mp hs')
    rw [AddOption_absent d s k v hs']
    unfold INI.HasOption
    rw [mapFind_append_absent _ _ _ hnot]
    show ((newOptions d.ordered).add k v).2.exist k = true
    have hopts : ((newOptions d.ordered).add k v).2.options
        = mapInsert (newOptions d.ordered).options k v := by
      rw [add_shape]
    unfold iniOptions.exist
    rw [hopts]
    simp [newOptions, mapFind]

theorem Options_AddOption_existing (d : INI) (s k v : Str)
    (hk : d.HasOption s k = true) :
    (d.AddOption s k v).2.Options s = d.Options s := by
  have hs : d.HasSection s = true := by
    unfold INI.HasOption at hk
    unfold INI.HasSection
    rcases hh : mapFind d.sections s with _ | o
    · rw [hh] at hk; simp at hk
    · simp
  obtain ⟨opts, hf⟩ := HasSection_exists d s hs
  have he : opts.exist k = true := by
    unfold INI.HasOption at hk
    rw [hf] at hk
    exact hk
  have hkeys : k ∈ opts.options.map Prod.fst := (exist_iff_mem_keys opts k).mp he
  rw [AddOption_found d s k v opts hf]
  rw [Options_some _ s (opts.add k v).2 (mapFind_mapInsert_self d.sections s _)]
  rw [Options_some d s opts hf]
  have hshape : (opts.add k v).2
      = { ordered := opts.ordered, optionNames := opts.optionNames,
          options := mapInsert opts.options k v } := by
    rw [add_shape]
    simp [he]
  rw [hshape]
  unfold iniOptions.getOptions
  by_cases hoo : opts.ordered = true
  · simp [hoo]
  · have hoo' : opts.ordered = false := by simpa using hoo
    simp [hoo', keys_mapInsert_present opts.options k v hkeys]

theorem count_one_of_nodup_mem (l : List Str) (k : Str) (hnd : l.Nodup) (hk : k ∈ l) :
    l.count k = 1 := by
  induction l with
  | nil => simp at hk
  | cons a t ih =>
    simp only [List.nodup_cons] at hnd
    rcases List.mem_cons.mp hk with h | h
    · subst h
      rw [List.count_cons_self, List.count_eq_zero.mpr hnd.1]
    · have hak : k ≠ a := fun he => hnd.1 (he ▸ h)
      rw [List.count_cons_of_ne hak]
      exact ih hnd.2 h

theorem Options_count_one (d : INI) (s k : Str) (hwf : iniWF d)
    (hk : d.HasOption s k = true) : ((d.Options s).count k) = 1 := by
  have hs : d.HasSection s = true := by
    unfold INI.HasOption at hk
    unfold INI.HasSection
    rcases hh : mapFind d.sections s with _ | o
    · rw [hh] at hk; simp at hk
    · simp
  obtain ⟨opts, hf⟩ := HasSection_exists d s hs
  have hwfo := hwf.2.2 (s, opts) (mapFind_mem _ _ _ hf)
  have he : opts.exist k = true := by
    unfold INI.HasOption at hk
    rw [hf] at hk
    exact hk
  rw [Options_eq_keys d s opts hwf hf]
  exact count_one_of_nodup_mem _ k hwfo.2.1 ((exist_iff_mem_keys opts k).mp he)

/-- Claim C1, counterexample to the claim as stated: both operation lists
satisfy the hypotheses the claim states (nonempty names and values with
no equals sign, bracket or newline), yet parsing the serialized text
does not reproduce the Document: an option name beginning with a
semicolon serializes to a line that re-parses as a comment, and a
section name with leading whitespace is trimmed by the parser. -/
theorem goini_C1_counterexample :
    (∀ op ∈ [Op.addOpt ("a".data) (";k".data) ("v".data)], addOnlyPiece op)
    ∧ ¬((Read (WriteString (build true [Op.addOpt ("a".data) (";k".data) ("v".data)])) true).1.Options ("a".data)
        = (build true [Op.addOpt ("a".data) (";k".data) ("v".data)]).Options ("a".data))
    ∧ (∀ op ∈ [Op.addSec (" s".data)], addOnlyPiece op)
    ∧ ¬((Read (WriteString (build true [Op.addSec (" s".data)])) true).1.Sections
        = (build true [Op.addSec (" s".data)]).Sections) := by decide

/-- Claim C1 (amended): for a Document built purely from AddSection and
AddOption calls whose section names, option names and values are
nonempty, contain no equals sign, bracket or newline character, and in
addition carry no leading or trailing whitespace and (for option names)
do not begin with a comment marker, parsing the text Write produces,
with the same ordered flag, yields a Document with the same Sections,
the same Options for every section, and the same option values; the
equalities are list equalities, hence order-sensitive in ordered mode. -/
theorem goini_C1 (flag : Bool) (ops : List Op)
    (h : ∀ op ∈ ops, addOnlyGood op) :
    (Read (WriteString (build flag ops)) flag).2 = none
    ∧ (Read (WriteString (build flag ops)) flag).1.Sections = (build flag ops).Sections
    ∧ (∀ s : Str, (Read (WriteString (build flag ops)) flag).1.Options s
        = (build flag ops).Options s)
    ∧ (∀ s k : Str, (Read (WriteString (build flag ops)) flag).1.GetOption s k
        = (build flag ops).GetOption s k) := by
  have hwf := iniWF_build flag ops
  have hg := GoodDoc_build flag ops h
  have hord : (build flag ops).ordered = flag := ordered_build flag ops
  have hrt := roundTrip (build flag ops) hwf hg
  rw [hord] at hrt
  rw [hrt]
  exact ⟨rfl, rfl, fun s => rfl, fun s k => rfl⟩

/-- Claim C1, witness: the amended hypotheses hold for a concrete build
and the round trip reproduces it. -/
theorem goini_C1_witness :
    (∀ op ∈ [Op.addSec ("sec".data), Op.addOpt ("sec".data) ("k".data) ("v".data),
        Op.addOpt ("other".data) ("x".data) ("y".data)], addOnlyGood op)
    ∧ (Read (WriteString (build true [Op.addSec ("sec".data),
        Op.addOpt ("sec".data) ("k".data) ("v".data),
        Op.addOpt ("other".data) ("x".data) ("y".data)])) true).2 = none
    ∧ (Read (WriteString (build true [Op.addSec ("sec".data),
        Op.addOpt ("sec".data) ("k".data) ("v".data),
        Op.addOpt ("other".data) ("x".data) ("y".data)])) true).1.Sections
      = (build true [Op.addSec ("sec".data),
        Op.addOpt ("sec".data) ("k".data) ("v".data),
        Op.addOpt ("other".data) ("x".data) ("y".data)]).Sections
    ∧ (Read (WriteString (build true [Op.addSec ("sec".data),
        Op.addOpt ("sec".data) ("k".data) ("v".data),
        Op.addOpt ("other".data) ("x".data) ("y".data)])) true).1.GetOption
          ("sec".data) ("k".data)
      = (build true [Op.addSec ("sec".data),
        Op.addOpt ("sec".data) ("k".data) ("v".data),
        Op.addOpt ("other".data) ("x".data) ("y".data)]).GetOption ("sec".data) ("k".data) :=
  ⟨by decide,
   (goini_C1 true _ (by decide)).1,
   (goini_C1 true _ (by decide)).2.1,
   (goini_C1 true _ (by decide)).2.2.2 ("sec".data) ("k".data)⟩

/-- Claim C2: for every input, parse fails exactly on the first read
line whose trimmed text is non-blank, not a comment, and matches neither
the assignment nor the section-header pattern; the reported error is
that line's 1-based number together with its trimmed text, and no error
is reported exactly when no such line exists.  In particular the single
line of text saying not valid ini with bangs fails with line 1 and that
exact text. -/
theorem goini_C2 :
    (∀ (s : Str) (flag : Bool),
      (Read s flag).2
        = (((stringTrace s).enumFrom 1).find? (fun q => lineBad q.2.chunk)).map
            (fun q => ({ Line := q.1, Source := trimSpace q.2.chunk } : ErrSyn)))
    ∧ (∀ (s : Str) (flag : Bool),
      (Read s flag).2 = none ↔ ∀ ev ∈ stringTrace s, lineBad ev.chunk = false)
    ∧ (Read ("not valid ini !!".data) true).2
        = some { Line := 1, Source := ("not valid ini !!".data) } := by
  have hmain : ∀ (s : Str) (flag : Bool),
      (Read s flag).2
        = (((stringTrace s).enumFrom 1).find? (fun q => lineBad q.2.chunk)).map
            (fun q => ({ Line := q.1, Source := trimSpace q.2.chunk } : ErrSyn)) := by
    intro s flag
    unfold Read
    rw [parse_snd_eq_firstBad]
    exact firstBad_traceOfPieces (splitNL s) 1
  refine ⟨hmain, ?_, by decide⟩
  intro s flag
  rw [hmain s flag]
  rw [Option.map_eq_none']
  exact enumFrom_find_none_iff (fun ev => lineBad ev.chunk) (stringTrace s) 1

/-- Claim C3 evaluated at the failing inputs: a non-EOF read error
during parse is silently dropped (the returned error is none) and the
input after the failed read is still consumed (the section from the
following chunk exists); Write against a sink that fails every write
still attempts every line and still returns nil.  This refutes the
claim that read and write failures are propagated and abort the
operation: the code checks only for EOF and discards every Fprintln
result. -/
theorem goini_C3_eval :
    (parse [⟨[], some RErr.other⟩, ⟨("[a]".data) ++ ['\n'], none⟩, ⟨[], some RErr.eof⟩]
        1 [] (NewINI true)).2 = none
    ∧ (parse [⟨[], some RErr.other⟩, ⟨("[a]".data) ++ ['\n'], none⟩, ⟨[], some RErr.eof⟩]
        1 [] (NewINI true)).1.HasSection ("a".data) = true
    ∧ (Write (build true [Op.addSec ("s".data)]) failAll).2 = none
    ∧ (Write (build true [Op.addSec ("s".data)]) failAll).1
        = [(("[s]".data) ++ ['\n'], some IOErr.ioError), (['\n'], some IOErr.ioError)] := by
  decide

/-- Claim C5: for every Document reachable by any operation sequence
from a fresh Document, in ordered mode the key set of the sections map
equals the name set of sectionNames and sectionNames has no duplicates,
while in unordered mode sectionNames stays empty; the same holds for
each stored option set's optionNames against its options map. -/
theorem goini_C5 (flag : Bool) (ops : List Op) :
    (if flag then
        ((build flag ops).sections.map Prod.fst).toFinset
            = (build flag ops).sectionNames.toFinset
          ∧ (build flag ops).sectionNames.Nodup
      else (build flag ops).sectionNames = [])
    ∧ ∀ p ∈ (build flag ops).sections,
        (if flag then
            (p.2.options.map Prod.fst).toFinset = p.2.optionNames.toFinset
              ∧ p.2.optionNames.Nodup
          else p.2.optionNames = []) := by
  obtain ⟨h1, h2, h3⟩ := iniWF_build flag ops
  have ho := ordered_build flag ops
  rw [ho] at h2
  constructor
  · cases flag with
    | true =>
      rw [if_pos rfl]
      rw [if_pos rfl] at h2
      rw [h2]
      exact ⟨rfl, h1⟩
    | false =>
      rw [if_neg (by simp)]
      rw [if_neg (by simp)] at h2
      exact h2
  · intro p hp
    obtain ⟨w1, w2, w3⟩ := h3 p hp
    rw [ho] at w3
    cases flag with
    | true =>
      rw [if_pos rfl]
      rw [if_pos rfl] at w3
      rw [w3]
      exact ⟨rfl, w2⟩
    | false =>
      rw [if_neg (by simp)]
      rw [if_neg (by simp)] at w3
      exact w3

/-- Claim C5, witness: the invariant at a concrete reachable Document,
with the inner quantifier instantiated at its one stored section. -/
theorem goini_C5_witness :
    (if true then
        ((build true [Op.addSec ("a".data), Op.addOpt ("a".data) ("k".data) ("v".data),
            Op.rmSec ("b".data)]).sections.map Prod.fst).toFinset
            = (build true [Op.addSec ("a".data), Op.addOpt ("a".data) ("k".data) ("v".data),
                Op.rmSec ("b".data)]).sectionNames.toFinset
          ∧ (build true [Op.addSec ("a".data), Op.addOpt ("a".data) ("k".data) ("v".data),
              Op.rmSec ("b".data)]).sectionNames.Nodup
      else (build true [Op.addSec ("a".data), Op.addOpt ("a".data) ("k".data) ("v".data),
          Op.rmSec ("b".data)]).sectionNames = []) :=
  (goini_C5 true [Op.addSec ("a".data), Op.addOpt ("a".data) ("k".data) ("v".data),
    Op.rmSec ("b".data)]).1

/-- Claim C6 (stated for arbitrary names): adding an option to a section
the Document does not have creates the section implicitly and stores the
value: HasSection becomes true and GetOption returns the value with the
found flag. -/
theorem goini_C6 (d : INI) (s k v : Str) (_h : d.HasSection s = false) :
    (d.AddOption s k v).2.HasSection s = true
    ∧ (d.AddOption s k v).2.GetOption s k = (v, true) := by
  constructor
  · have hho := AddOption_HasOption_self d s k v
    unfold INI.HasOption at hho
    unfold INI.HasSection
    rcases hh : mapFind (d.AddOption s k v).2.sections s with _ | o
    · rw [hh] at hho; simp at hho
    · simp
  · exact AddOption_GetOption_self d s k v

/-- Claim C6, witness: a fresh Document has no section named new; after
AddOption the section exists and the option reads back. -/
theorem goini_C6_witness :
    (NewINI true).HasSection ("new".data) = false
    ∧ ((NewINI true).AddOption ("new".data) ("k".data) ("v".data)).2.HasSection
        ("new".data) = true
    ∧ ((NewINI true).AddOption ("new".data) ("k".data) ("v".data)).2.GetOption
        ("new".data) ("k".data) = ("v".data, true) :=
  ⟨by decide,
   (goini_C6 (NewINI true) ("new".data) ("k".data) ("v".data) (by decide)).1,
   (goini_C6 (NewINI true) ("new".data) ("k".data) ("v".data) (by decide)).2⟩

/-- Claim C7: adding the same option name twice leaves exactly one
option of that name, with the second value; both calls return true, and
in ordered mode the option list after the second call equals the option
list after the first, so the name keeps its first-insertion position. -/
theorem goini_C7 (flag : Bool) (ops : List Op) (s k v1 v2 : Str) :
    ((build flag ops).AddOption s k v1).1 = true
    ∧ (((build flag ops).AddOption s k v1).2.AddOption s k v2).1 = true
    ∧ ((((build flag ops).AddOption s k v1).2.AddOption s k v2).2.Options s).count k = 1
    ∧ (((build flag ops).AddOption s k v1).2.AddOption s k v2).2.GetOption s k = (v2, true)
    ∧ (flag = true →
        (((build flag ops).AddOption s k v1).2.AddOption s k v2).2.Options s
          = ((build flag ops).AddOption s k v1).2.Options s) := by
  have hwf1 : iniWF ((build flag ops).AddOption s k v1).2 :=
    iniWF_AddOption _ s k v1 (iniWF_build flag ops)
  have hwf2 : iniWF (((build flag ops).AddOption s k v1).2.AddOption s k v2).2 :=
    iniWF_AddOption _ s k v2 hwf1
  refine ⟨AddOption_fst _ s k v1, AddOption_fst _ s k v2, ?_, ?_, ?_⟩
  · exact Options_count_one _ s k hwf2 (AddOption_HasOption_self _ s k v2)
  · exact AddOption_GetOption_self _ s k v2
  · intro _
    exact Options_AddOption_existing _ s k v2 (AddOption_HasOption_self _ s k v1)

/-- Claim C7, witness: concrete double add on a reachable Document. -/
theorem goini_C7_witness :
    (((build true [Op.addSec ("a".data)]).AddOption ("a".data) ("k".data) ("v1".data)).1 = true)
    ∧ ((((build true [Op.addSec ("a".data)]).AddOption ("a".data) ("k".data)
        ("v1".data)).2.AddOption ("a".data) ("k".data) ("v2".data)).2.Options
        ("a".data)).count ("k".data) = 1
    ∧ (((build true [Op.addSec ("a".data)]).AddOption ("a".data) ("k".data)
        ("v1".data)).2.AddOption ("a".data) ("k".data) ("v2".data)).2.GetOption
        ("a".data) ("k".data) = ("v2".data, true)
    ∧ (((build true [Op.addSec ("a".data)]).AddOption ("a".data) ("k".data)
        ("v1".data)).2.AddOption ("a".data) ("k".data) ("v2".data)).2.Options ("a".data)
      = ((build true [Op.addSec ("a".data)]).AddOption ("a".data) ("k".data)
        ("v1".data)).2.Options ("a".data) :=
  ⟨(goini_C7 true [Op.addSec ("a".data)] ("a".data) ("k".data) ("v1".data) ("v2".data)).1,
   (goini_C7 true [Op.addSec ("a".data)] ("a".data) ("k".data) ("v1".data) ("v2".data)).2.2.1,
   (goini_C7 true [Op.addSec ("a".data)] ("a".data) ("k".data) ("v1".data) ("v2".data)).2.2.2.1,
   (goini_C7 true [Op.addSec ("a".data)] ("a".data) ("k".data) ("v1".data)
     ("v2".data)).2.2.2.2 rfl⟩

/-- Claim C8: on reachable Documents, a successful RemoveOption leaves
HasOption false and GetOption not-found for that name; removing a
non-existent option (HasOption false) returns false and leaves the whole
Document unchanged, and removing a non-existent section (HasSection
false) returns false and leaves the whole Document unchanged. -/
theorem goini_C8 (flag : Bool) (ops : List Op) (s k : Str) :
    (((build flag ops).RemoveOption s k).1 = true →
        ((build flag ops).RemoveOption s k).2.HasOption s k = false
        ∧ ((build flag ops).RemoveOption s k).2.GetOption s k = ([], false))
    ∧ ((build flag ops).HasOption s k = false →
        (build flag ops).RemoveOption s k = (false, build flag ops))
    ∧ ((build flag ops).HasSection s = false →
        (build flag ops).RemoveSection s = (false, build flag ops)) := by
  have hwf := iniWF_build flag ops
  refine ⟨?_, ?_, ?_⟩
  · intro hr
    by_cases hs : (build flag ops).HasSection s = true
    · obtain ⟨opts, hf⟩ := HasSection_exists _ s hs
      have hwfo := hwf.2.2 (s, opts) (mapFind_mem _ _ _ hf)
      rw [RemoveOption_found _ s k opts hf]
      by_cases he : opts.exist k = true
      · have hnone : mapFind (opts.remove k).2.options k = none := by
          rw [remove_present opts k he]
          exact mapFind_mapErase_self opts.options k hwfo.2.1
        constructor
        · unfold INI.HasOption
          rw [show mapFind (mapInsert (build flag ops).sections s (opts.remove k).2) s
              = some (opts.remove k).2
            from mapFind_mapInsert_self (build flag ops).sections s _]
          show (opts.remove k).2.exist k = false
          unfold iniOptions.exist
          rw [hnone]
          rfl
        · unfold INI.GetOption
          rw [show mapFind (mapInsert (build flag ops).sections s (opts.remove k).2) s
              = some (opts.remove k).2
            from mapFind_mapInsert_self (build flag ops).sections s _]
          show (opts.remove k).2.get k = ([], false)
          unfold iniOptions.get iniOptions.exist
          rw [hnone]
          rfl
      · have he' : opts.exist k = false := by simpa using he
        rw [RemoveOption_found _ s k opts hf, remove_absent opts k he'] at hr
        simp at hr
    · rw [RemoveOption_noSection _ s k (by simpa using hs)] at hr
      simp at hr
  · intro hno
    by_cases hs : (build flag ops).HasSection s = true
    · obtain ⟨opts, hf⟩ := HasSection_exists _ s hs
      unfold INI.HasOption at hno
      rw [hf] at hno
      have he : opts.exist k = false := hno
      rw [RemoveOption_found (build flag ops) s k opts hf, remove_absent opts k he]
      show ((false, { (build flag ops) with
          sections := mapInsert (build flag ops).sections s opts }) : Bool × INI)
        = (false, build flag ops)
      rw [mapInsert_found_self (build flag ops).sections s opts hf]
    · exact RemoveOption_noSection _ s k (by simpa using hs)
  · intro hs
    exact RemoveSection_absent _ s hs

/-- Claim C8, witness: removing an existing option succeeds and the
option is gone; removing a missing option and a missing section each
return false and change nothing about the Document. -/
theorem goini_C8_witness :
    (((build true [Op.addOpt ("a".data) ("k".data) ("v".data)]).RemoveOption
        ("a".data) ("k".data)).1 = true
      ∧ ((build true [Op.addOpt ("a".data) ("k".data) ("v".data)]).RemoveOption
        ("a".data) ("k".data)).2.HasOption ("a".data) ("k".data) = false)
    ∧ ((build true [Op.addOpt ("a".data) ("k".data) ("v".data)]).RemoveOption
        ("a".data) ("zz".data)
      = (false, build true [Op.addOpt ("a".data) ("k".data) ("v".data)]))
    ∧ ((build true [Op.addOpt ("a".data) ("k".data) ("v".data)]).RemoveSection
        ("b".data)
      = (false, build true [Op.addOpt ("a".data) ("k".data) ("v".data)])) :=
  ⟨⟨by decide,
    ((goini_C8 true [Op.addOpt ("a".data) ("k".data) ("v".data)] ("a".data)
      ("k".data)).1 (by decide)).1⟩,
   (goini_C8 true [Op.addOpt ("a".data) ("k".data) ("v".data)] ("a".data)
      ("zz".data)).2.1 (by decide),
   (goini_C8 true [Op.addOpt ("a".data) ("k".data) ("v".data)] ("b".data)
      ("k".data)).2.2 (by decide)⟩

/-- Claim C9: the section-header pattern captures greedily up to the
last closing bracket of the trimmed line: a header followed by extra
text matches neither pattern and is rejected with a syntax error at
line 1 carrying that text, while a line with an interior closing
bracket is accepted as a section whose name keeps that bracket. -/
theorem goini_C9 :
    assignMatch ("[a] extra".data) = none
    ∧ sectionMatch ("[a] extra".data) = none
    ∧ (Read ("[a] extra".data) true).2 = some { Line := 1, Source := ("[a] extra".data) }
    ∧ sectionMatch ("[a]junk]".data) = some ("a]junk".data)
    ∧ (Read ("[a]junk]".data) true).2 = none
    ∧ (Read ("[a]junk]".data) true).1.HasSection ("a]junk".data) = true
    ∧ (Read ("[a]junk]".data) true).1.Sections = [("a]junk".data)] := by decide

/-- Claim C10: an input consisting only of blank and comment lines,
including the empty input, parses without error to a Document with no
sections at all; in particular the implicit unnamed section is not
created merely by parsing, while an assignment line before any header
does create it. -/
theorem goini_C10 (s : Str) (flag : Bool)
    (h : ∀ ev ∈ stringTrace s, trimSpace ev.chunk = []
        ∨ (trimSpace ev.chunk).head? = some ';' ∨ (trimSpace ev.chunk).head? = some '#') :
    Read s flag = (NewINI flag, none)
    ∧ (Read s flag).1.Sections = []
    ∧ (Read s flag).1.HasSection [] = false
    ∧ (Read ("k = v".data) true).1.HasSection [] = true := by
  have hp := parse_skip_all (stringTrace s) 1 [] (NewINI flag) h
  unfold Read
  rw [hp]
  refine ⟨rfl, ?_, rfl, by decide⟩
  cases flag <;> rfl

/-- Claim C10, witness: a concrete comment-and-blank-only input. -/
theorem goini_C10_witness :
    (∀ ev ∈ stringTrace ("; c\n\n# d\n".data), trimSpace ev.chunk = []
        ∨ (trimSpace ev.chunk).head? = some ';' ∨ (trimSpace ev.chunk).head? = some '#')
    ∧ Read ("; c\n\n# d\n".data) true = (NewINI true, none)
    ∧ (Read ("; c\n\n# d\n".data) true).1.Sections = [] :=
  ⟨by decide,
   (goini_C10 ("; c\n\n# d\n".data) true (by decide)).1,
   (goini_C10 ("; c\n\n# d\n".data) true (by decide)).2.1⟩
/-- Claim C4, witness: removing one section leaves the order of the
remaining section names and the other section's options unchanged. -/
theorem goini_C4_witness :
    ((applyOp (build true [Op.addSec ("a".data), Op.addSec ("b".data)])
        (Op.rmSec ("a".data))).Sections).filter
        (fun x => x ≠ (Op.rmSec ("a".data)).secArg)
      = ((build true [Op.addSec ("a".data), Op.addSec ("b".data)]).Sections).filter
        (fun x => x ≠ (Op.rmSec ("a".data)).secArg)
    ∧ (applyOp (build true [Op.addSec ("a".data), Op.addSec ("b".data)])
        (Op.rmSec ("a".data))).Options ("b".data)
      = (build true [Op.addSec ("a".data), Op.addSec ("b".data)]).Options ("b".data) :=
  ⟨(goini_C4 [Op.addSec ("a".data), Op.addSec ("b".data)] (Op.rmSec ("a".data))).1,
   (goini_C4 [Op.addSec ("a".data), Op.addSec ("b".data)] (Op.rmSec ("a".data))).2.1
     ("b".data) (by decide)⟩
